import Mathlib

/-!
Verification development for the IVA QC analysis engine (`iva/qc.py`).

The analysis engine is embedded shallowly: the pure per-sequence bodies of
the `Qc` methods become Lean functions over explicit inputs.  Genomic
coordinates are integers; Python float division on the ±10% length-ratio
tests is modelled with exact rationals; fallible code paths (the pyfastaq
interval constructor raises when `start > end`, and `Qc.__init__` raises on
bad configuration) return `Except`.  The interval primitives that `qc.py`
delegates to the pyfastaq library (`merge_overlapping_in_list`,
`length_sum_from_list`, `intersection`, `Interval.intersects`) are not part
of the repository source; they are modelled from the specification's
Interval Algebra contract, as marked on each definition.
-/

namespace IvaQc

/-- Closed integer interval `[start, end]` over one sequence coordinate
space, as used throughout `qc.py` (a pyfastaq `Interval`). -/
structure Interval where
  start : ℤ
  «end» : ℤ
deriving DecidableEq, Repr

/-- Modelled from the spec: the interval invariant `start <= end`
(the pyfastaq `Interval` constructor rejects `start > end`). -/
def mkInterval (s e : ℤ) : Except String Interval :=
  if s ≤ e then Except.ok ⟨s, e⟩ else Except.error "Error. start > end"

/-- Modelled from the spec: two intervals intersect when their ranges
overlap by at least one position. -/
def Interval.intersects (a b : Interval) : Bool :=
  decide (a.start ≤ b.«end» ∧ b.start ≤ a.«end»)

/-- Position `p` lies inside interval `a`. -/
def Interval.containsPos (a : Interval) (p : ℤ) : Prop :=
  a.start ≤ p ∧ p ≤ a.«end»

instance (a : Interval) (p : ℤ) : Decidable (a.containsPos p) := by
  unfold Interval.containsPos; infer_instance

/-- Position `p` is covered by some interval of the list. -/
def coversPos (l : List Interval) (p : ℤ) : Prop :=
  ∃ a ∈ l, a.containsPos p

instance (l : List Interval) (p : ℤ) : Decidable (coversPos l p) := by
  unfold coversPos; infer_instance

/-- The sort order used on interval lists: lexicographic on
`(start, end)`, as Python's tuple comparison sorts them. -/
def Interval.lex_le (a b : Interval) : Prop :=
  a.start < b.start ∨ (a.start = b.start ∧ a.«end» ≤ b.«end»)

instance : DecidableRel Interval.lex_le := by
  unfold Interval.lex_le DecidableRel; infer_instance

instance : IsTotal Interval Interval.lex_le where
  total a b := by unfold Interval.lex_le; omega

instance : IsTrans Interval Interval.lex_le where
  trans a b c := by unfold Interval.lex_le; omega

/-- Fold of a sorted interval list joining adjacent or overlapping
intervals into single spans. -/
def mergeFold : Interval → List Interval → List Interval
  | cur, [] => [cur]
  | cur, b :: rest =>
    if b.start ≤ cur.«end» + 1 then mergeFold ⟨cur.start, max cur.«end» b.«end»⟩ rest
    else cur :: mergeFold b rest

/-- Modelled from the spec: `merge_overlapping(intervals)` sorts by start,
then folds adjacent/overlapping intervals into single spans
(pyfastaq `intervals.merge_overlapping_in_list`, used pervasively by
`qc.py`; the Lean version returns the merged list instead of mutating). -/
def merge_overlapping_in_list (l : List Interval) : List Interval :=
  match List.insertionSort Interval.lex_le l with
  | [] => []
  | a :: rest => mergeFold a rest

/-- Modelled from the spec: `total_length(intervals)`, the sum of
`end - start + 1` (pyfastaq `intervals.length_sum_from_list`). -/
def length_sum_from_list (l : List Interval) : ℤ :=
  (l.map (fun a => a.«end» - a.start + 1)).sum

/-- Modelled from the spec: set intersection of two interval lists over the
same coordinate space (pyfastaq `intervals.intersection`). -/
def intersection (l1 l2 : List Interval) : List Interval :=
  l1.flatMap (fun a => l2.filterMap (fun b =>
    if a.intersects b then some ⟨max a.start b.start, min a.«end» b.«end»⟩ else none))

/-- Inner gaps between consecutive intervals: the main loop of
`Qc._invert_list` (each gap is built by the checking interval
constructor, in left-to-right order). -/
def innerGaps : List Interval → Except String (List Interval)
  | [] => Except.ok []
  | [_] => Except.ok []
  | a :: b :: rest => do
    let iv ← mkInterval (a.«end» + 1) (b.start - 1)
    let r ← innerGaps (b :: rest)
    Except.ok (iv :: r)

/-- `Qc._invert_list(coords, seq_length)`: complement of a sorted,
non-overlapping interval list over `[0, seq_length - 1]`.  Interval
construction goes through the checking constructor, so the function
fails exactly where the Python code raises. -/
def invert_list : List Interval → ℤ → Except String (List Interval)
  | [], seq_length => do
    let iv ← mkInterval 0 (seq_length - 1)
    Except.ok [iv]
  | c0 :: rest, seq_length => do
    let head ← if c0.start ≠ 0 then do
        let iv ← mkInterval 0 (c0.start - 1)
        Except.ok [iv]
      else Except.ok ([] : List Interval)
    let inner ← innerGaps (c0 :: rest)
    let lastIv := (c0 :: rest).getLast (List.cons_ne_nil c0 rest)
    let tail ← if lastIv.«end» < seq_length - 1 then do
        let iv ← mkInterval (lastIv.«end» + 1) (seq_length - 1)
        Except.ok [iv]
      else Except.ok ([] : List Interval)
    Except.ok (head ++ inner ++ tail)

/-- Loop of `Qc._coverage_list_to_low_cov_intervals`: `i` is the current
position, `start` the open run's start (Python's `start = None` is
`none`).  The final interval of Python's post-loop append closes at the
last position, i.e. at `i - 1` once the list is exhausted. -/
def low_cov_loop (min_ref_cov : ℕ) : List ℕ → ℕ → Option ℕ → List Interval → List Interval
  | [], i, some s, acc => acc ++ [⟨(s : ℤ), (i : ℤ) - 1⟩]
  | [], _, none, acc => acc
  | d :: rest, i, start, acc =>
    if d < min_ref_cov then
      low_cov_loop min_ref_cov rest (i + 1) (some (start.getD i)) acc
    else
      match start with
      | some s => low_cov_loop min_ref_cov rest (i + 1) none (acc ++ [⟨(s : ℤ), (i : ℤ) - 1⟩])
      | none => low_cov_loop min_ref_cov rest (i + 1) none acc

/-- `Qc._coverage_list_to_low_cov_intervals(l)`: scan a per-position depth
array and return one interval per run of positions strictly below
`min_ref_cov`. -/
def coverage_list_to_low_cov_intervals (min_ref_cov : ℕ) (l : List ℕ) : List Interval :=
  low_cov_loop min_ref_cov l 0 none []

/-- Modelled from the spec: one normalized pairwise alignment record
(`AlignmentHit`, parsed by the `mummer` module).  `uid` stands for Python
object identity: every hit handled by `qc.py` is a freshly copied object,
so two hits are `!=` exactly when they are different records here, provided
the `uid`s are distinct. -/
structure NucmerHit where
  uid : ℕ
  ref_start : ℤ
  ref_end : ℤ
  qry_start : ℤ
  qry_end : ℤ
  hit_length_ref : ℤ
  hit_length_qry : ℤ
  ref_name : String
  qry_name : String
deriving DecidableEq, Repr

/-- Modelled from the spec: the hit's reference interval, always returned
with `start <= end` regardless of strand (`ref_coords`). -/
def NucmerHit.ref_coords (h : NucmerHit) : Interval :=
  ⟨min h.ref_start h.ref_end, max h.ref_start h.ref_end⟩

/-- Modelled from the spec: the hit's query interval, always returned with
`start <= end` regardless of strand (`qry_coords`). -/
def NucmerHit.qry_coords (h : NucmerHit) : Interval :=
  ⟨min h.qry_start h.qry_end, max h.qry_start h.qry_end⟩

/-- `Qc._get_overlapping_qry_hits(hits, hit)`: all other hits of the group
whose query interval intersects this hit's query interval. -/
def get_overlapping_qry_hits (hits : List NucmerHit) (hit : NucmerHit) : List NucmerHit :=
  hits.filter (fun t => decide (t ≠ hit) && t.qry_coords.intersects hit.qry_coords)

/-- `Qc._get_unique_and_repetitive_from_contig_hits(hits)`: one pass over
the hits, appending each to the repetitive list when it has at least one
query-overlapping neighbour and to the unique list otherwise. -/
def get_unique_and_repetitive_from_contig_hits (hits : List NucmerHit) :
    List NucmerHit × List NucmerHit :=
  hits.foldl (fun ur hit =>
    if (get_overlapping_qry_hits hits hit).length ≠ 0 then (ur.1, ur.2 ++ [hit])
    else (ur.1 ++ [hit], ur.2)) ([], [])

/-- Per-reference-sequence record of `Qc._calculate_refseq_assembly_stats`. -/
structure RefSeqStats where
  hits : ℕ
  bases_assembled : ℤ
  assembled : Bool
  assembled_ok : Bool
deriving DecidableEq, Repr

/-- Per-sequence body of `Qc._calculate_refseq_assembly_stats`: the empty
branch is the `name not in refhits` record (hit lists hashed by reference
are nonempty by construction). -/
def calculate_refseq_assembly_stats (hit_list : List NucmerHit) (ref_length : ℤ) :
    RefSeqStats :=
  match hit_list with
  | [] => { hits := 0, bases_assembled := 0, assembled := false, assembled_ok := false }
  | h0 :: _ =>
    let coords := merge_overlapping_in_list (hit_list.map NucmerHit.ref_coords)
    { hits := hit_list.length
      bases_assembled := length_sum_from_list coords
      assembled := decide ((0.9 : ℚ) ≤ (length_sum_from_list coords : ℚ) / (ref_length : ℚ))
      assembled_ok := decide (hit_list.length = 1) &&
        decide ((0.9 : ℚ) ≤ (h0.hit_length_ref : ℚ) / (ref_length : ℚ) ∧
          (h0.hit_length_ref : ℚ) / (ref_length : ℚ) ≤ 1.1) }

/-- Per-CDS record of `Qc.cds_assembly_stats`: the dict created in
`Qc._write_cds_seqs`, with the two keys added later by
`Qc._calculate_cds_assembly_stats` as `Option` fields (absent = `none`). -/
structure CdsStats where
  ref_name : String
  ref_coords : Interval
  strand : String
  length_in_ref : ℤ
  assembled : Bool
  assembled_ok : Bool
  bases_assembled : Option ℤ
  number_of_contig_hits : Option ℕ
deriving DecidableEq, Repr

/-- The record `Qc._write_cds_seqs` stores for one CDS feature
(`len(coords)` of a pyfastaq interval is `end - start + 1`). -/
def init_cds_stats (fa_id : String) (coords : Interval) (strand : String) : CdsStats :=
  { ref_name := fa_id
    ref_coords := coords
    strand := strand
    length_in_ref := coords.«end» - coords.start + 1
    assembled := false
    assembled_ok := false
    bases_assembled := none
    number_of_contig_hits := none }

/-- Per-CDS body of the `Qc._calculate_cds_assembly_stats` loop for a CDS
name present in the nucmer hits; `has_orf` abstracts
`Qc._has_orf(contigs[hit.ref_name], start, end, min_length)`, whose ORF
search lives in the external fastaq library. -/
def update_cds_stats (has_orf : String → ℤ → ℤ → ℚ → Bool) (rec : CdsStats)
    (hit_list : List NucmerHit) : CdsStats :=
  let hit_coords := merge_overlapping_in_list (hit_list.map NucmerHit.qry_coords)
  let bases := length_sum_from_list hit_coords
  { rec with
    number_of_contig_hits := some hit_list.length
    bases_assembled := some bases
    assembled := decide ((0.9 : ℚ) ≤ (bases : ℚ) / (rec.length_in_ref : ℚ) ∧
      (bases : ℚ) / (rec.length_in_ref : ℚ) ≤ 1.1)
    assembled_ok := match hit_list with
      | [hit] => has_orf hit.ref_name hit.ref_coords.start hit.ref_coords.«end»
          ((0.9 : ℚ) * (rec.length_in_ref : ℚ))
      | _ => false }

/-- Update the record stored under `name` in an association list. -/
def updateAssoc (l : List (String × CdsStats)) (name : String)
    (f : CdsStats → CdsStats) : List (String × CdsStats) :=
  l.map (fun p => if p.1 = name then (p.1, f p.2) else p)

/-- `Qc._calculate_cds_assembly_stats`: an empty assembly returns at once;
otherwise each CDS name appearing in the nucmer coords file has its record
updated (every query name of that file is a CDS key in the pipeline). -/
def calculate_cds_assembly_stats (has_orf : String → ℤ → ℤ → ℚ → Bool)
    (assembly_is_empty : Bool) (cds_stats : List (String × CdsStats))
    (hits : List (String × List NucmerHit)) : List (String × CdsStats) :=
  if assembly_is_empty then cds_stats
  else hits.foldl (fun acc p => updateAssoc acc p.1 (fun r => update_cds_stats has_orf r p.2)) cds_stats

/-- Reference intervals of all hits whose reference side is `name`
(the grouping done by the loop of
`Qc._calculate_ref_positions_covered_by_contigs`). -/
def hits_to_ref_coords (hits : List (String × List NucmerHit)) (name : String) :
    List Interval :=
  (((hits.map Prod.snd).flatten).filter (fun h => h.ref_name == name)).map NucmerHit.ref_coords

/-- `Qc._calculate_ref_positions_covered_by_contigs`: returns the pair
(`ref_pos_covered_by_contigs`, `ref_pos_not_covered_by_contigs`).  With an
empty assembly, every reference sequence is one full-length gap; otherwise
each sequence's merged hit coverage is complemented over its length. -/
def calculate_ref_positions_covered_by_contigs (assembly_is_empty : Bool)
    (assembly_vs_ref_mummer_hits : List (String × List NucmerHit))
    (ref_lengths : List (String × ℤ)) :
    Except String (List (String × List Interval) × List (String × List Interval)) :=
  if assembly_is_empty then do
    let nc ← ref_lengths.mapM (fun p => do
      let iv ← mkInterval 0 (p.2 - 1)
      Except.ok (p.1, [iv]))
    Except.ok ([], nc)
  else do
    let names := (((assembly_vs_ref_mummer_hits.map Prod.snd).flatten).map NucmerHit.ref_name).dedup
    let covered := names.map (fun n =>
      (n, merge_overlapping_in_list (hits_to_ref_coords assembly_vs_ref_mummer_hits n)))
    let nc ← ref_lengths.mapM (fun p => do
      let l := ((covered.find? (fun q => q.1 == p.1)).map Prod.snd).getD []
      let inv ← invert_list l p.2
      Except.ok (p.1, inv))
    Except.ok (covered, nc)

/-- Per-sequence body of `Qc._calculate_should_have_assembled`: intersect
the complement of the contig-covered region with the ok-coverage region
(`covered = none` is the `name not in ref_pos_covered_by_contigs` case). -/
def calculate_should_have_assembled (covered : Option (List Interval)) (ref_length : ℤ)
    (ok_cov : List Interval) : Except String (List Interval) := do
  let inv ← invert_list (covered.getD []) ref_length
  Except.ok (intersection inv ok_cov)

/-- The four per-sequence interval lists set by
`Qc._calculate_ref_read_region_coverage`. -/
structure RegionCoverage where
  low_cov_fwd : List Interval
  low_cov_rev : List Interval
  ok_cov : List Interval
  low_cov : List Interval
deriving DecidableEq, Repr

/-- Per-sequence body of `Qc._calculate_ref_read_region_coverage`. -/
def calculate_ref_read_region_coverage (min_ref_cov : ℕ) (cov_fwd cov_rev : List ℕ)
    (ref_length : ℤ) : Except String RegionCoverage := do
  let lf := coverage_list_to_low_cov_intervals min_ref_cov cov_fwd
  let lr := coverage_list_to_low_cov_intervals min_ref_cov cov_rev
  let fwd_ok ← invert_list lf ref_length
  let rev_ok ← invert_list lr ref_length
  Except.ok { low_cov_fwd := lf
              low_cov_rev := lr
              ok_cov := intersection fwd_ok rev_ok
              low_cov := intersection lf lr }

/-- The fixed key set `Qc.stats_keys`. -/
def stats_keys : List String :=
  [ "ref_bases"
  , "ref_sequences"
  , "ref_bases_assembled"
  , "ref_sequences_assembled"
  , "ref_sequences_assembled_ok"
  , "ref_bases_assembler_missed"
  , "assembly_bases"
  , "assembly_bases_in_ref"
  , "assembly_contigs"
  , "assembly_contigs_hit_ref"
  , "assembly_bases_reads_disagree"
  , "cds_number"
  , "cds_assembled"
  , "cds_assembled_ok" ]

/-- `Qc.__init__`'s `self.stats`: every key carries the `-1` sentinel. -/
def initial_stats : String → ℤ := fun _ => -1

/-- Assign one key of the stats report. -/
def setStat (stats : String → ℤ) (key : String) (v : ℤ) : String → ℤ :=
  fun k => if k = key then v else stats k

/-- The structures `Qc._calculate_stats` reads, as computed by the earlier
stages of `Qc._do_calculations` (dicts become association lists). -/
structure QcData where
  ref_lengths : List (String × ℤ)
  ref_pos_covered_by_contigs : List (String × List Interval)
  refseq_assembly_stats : List (String × RefSeqStats)
  should_have_assembled : List (String × List Interval)
  assembly_lengths : List (String × ℤ)
  assembly_vs_ref_mummer_hits : List (String × List NucmerHit)
  incorrect_assembly_bases : List (String × List ℤ)
  cds_assembly_stats : List (String × CdsStats)

/-- `Qc._contigs_and_bases_that_hit_ref`: total merged query-side bases
over all contigs with hits, and the number of such contigs. -/
def contigs_and_bases_that_hit_ref (hits : List (String × List NucmerHit)) : ℤ × ℕ :=
  ((hits.map (fun p =>
      length_sum_from_list (merge_overlapping_in_list (p.2.map NucmerHit.qry_coords)))).sum,
   hits.length)

/-- `Qc._calculate_stats`: overwrite every sentinel entry of the report
with its computed value. -/
def calculate_stats (d : QcData) : String → ℤ :=
  let s := setStat initial_stats "ref_bases" (d.ref_lengths.map Prod.snd).sum
  let s := setStat s "ref_sequences" d.ref_lengths.length
  let s := setStat s "ref_bases_assembled"
    (d.ref_pos_covered_by_contigs.map (fun p => length_sum_from_list p.2)).sum
  let s := setStat s "ref_sequences_assembled"
    ((d.refseq_assembly_stats.filter (fun p => p.2.assembled)).length : ℤ)
  let s := setStat s "ref_sequences_assembled_ok"
    ((d.refseq_assembly_stats.filter (fun p => p.2.assembled_ok)).length : ℤ)
  let s := setStat s "ref_bases_assembler_missed"
    (d.should_have_assembled.map (fun p => length_sum_from_list p.2)).sum
  let s := setStat s "assembly_bases" (d.assembly_lengths.map Prod.snd).sum
  let s := setStat s "assembly_contigs" (d.assembly_lengths.length : ℤ)
  let s := setStat s "assembly_bases_in_ref"
    (contigs_and_bases_that_hit_ref d.assembly_vs_ref_mummer_hits).1
  let s := setStat s "assembly_contigs_hit_ref"
    ((contigs_and_bases_that_hit_ref d.assembly_vs_ref_mummer_hits).2 : ℤ)
  let s := setStat s "assembly_bases_reads_disagree"
    ((d.incorrect_assembly_bases.map (fun p => p.2.length)).sum : ℤ)
  let s := setStat s "cds_number" (d.cds_assembly_stats.length : ℤ)
  let s := setStat s "cds_assembled"
    ((d.cds_assembly_stats.filter (fun p => p.2.assembled)).length : ℤ)
  let s := setStat s "cds_assembled_ok"
    ((d.cds_assembly_stats.filter (fun p => p.2.assembled_ok)).length : ℤ)
  s

/-- The existence check `Qc.__init__` runs on each referenced file
(`qc.py` lines 49-51); `file_exists` abstracts `os.path.exists`. -/
def file_check (file_exists : String → Bool) : Option String → Except String Unit
  | some name =>
    if file_exists name then Except.ok ()
    else Except.error ("Error in IVA QC. File not found: \"" ++ name ++ "\"")
  | none => Except.ok ()

/-- The validation sequence of `Qc.__init__` (lines 39-82), in source
order: the annotation-source check, the per-file existence checks, the
interleaved-reads override of the read pair, and the read-pair
completeness check.  Python's `if reads_fr:` tests truthiness, while the
final check tests `reads_fr is not None`, so both views are modelled. -/
def qc_init_check (file_exists : String → Bool) (embl_dir ref_db : Option String)
    (assembly_fasta : String) (reads_fr reads_fwd reads_rev : Option String)
    ( output_prefix : String) : Except String Unit := do
  if embl_dir.isNone && ref_db.isNone then
    Except.error "Must provide either embl_dir or ref_db to Qc object. Cannot continue"
  else
    file_check file_exists (some assembly_fasta)
    file_check file_exists reads_fr
    file_check file_exists reads_fwd
    file_check file_exists reads_rev
    let fr_truthy := match reads_fr with
      | some s => s != ""
      | none => false
    let fwd := if fr_truthy then some ( output_prefix ++ ".reads_1") else reads_fwd
    let rev := if fr_truthy then some ( output_prefix ++ ".reads_2") else reads_rev
    if !((fwd.isSome && rev.isSome) || reads_fr.isSome) then
      Except.error "IVA QC needs reads_fr or both reads_fwd and reads_rev"
    else Except.ok ()

/-- Index of the first position meeting the coverage threshold (the array
length when none does): the position at which an open low-coverage run
closes. -/
def first_good_index (min_ref_cov : ℕ) (l : List ℕ) : ℕ :=
  l.findIdx (fun d => decide (min_ref_cov ≤ d))

/-- A maximal run of consecutive positions with depth strictly below the
threshold: every position in `[s, e]` is below the threshold, and the run
is bounded on each side by a position meeting the threshold or by an
array edge. -/
def isMaxRun (min_ref_cov : ℕ) (l : List ℕ) (s e : ℕ) : Prop :=
  s ≤ e ∧ e < l.length ∧
  (∀ j, s ≤ j → j ≤ e → l.getD j 0 < min_ref_cov) ∧
  (s = 0 ∨ min_ref_cov ≤ l.getD (s - 1) 0) ∧
  (e + 1 = l.length ∨ min_ref_cov ≤ l.getD (e + 1) 0)

/-- Reference form of the complement of a separated interval chain over
`[lo, seq_length - 1]`, used to reason about `invert_list`. -/
def gaps_from (lo : ℤ) : List Interval → ℤ → List Interval
  | [], seq_length => if lo ≤ seq_length - 1 then [⟨lo, seq_length - 1⟩] else []
  | c :: rest, seq_length =>
    (if lo ≤ c.start - 1 then [⟨lo, c.start - 1⟩] else []) ++
      gaps_from (c.«end» + 1) rest seq_length

/-! ## Hit classifier: claim C3 -/

/-- A hit has at least one other hit in the group whose query interval
intersects its own (the repetitiveness test of the Hit Classifier). -/
def has_qry_overlap (hits : List NucmerHit) (h : NucmerHit) : Prop :=
  ∃ t ∈ hits, t ≠ h ∧ t.qry_coords.intersects h.qry_coords = true

instance (hits : List NucmerHit) (h : NucmerHit) : Decidable (has_qry_overlap hits h) := by
  unfold has_qry_overlap; infer_instance

/-- The loop test `len(self._get_overlapping_qry_hits(hits, hit))` is
nonzero exactly when some other hit query-overlaps this one. -/
theorem overlap_pred_iff (hits : List NucmerHit) (h : NucmerHit) :
    (get_overlapping_qry_hits hits h).length ≠ 0 ↔ has_qry_overlap hits h := by
  unfold get_overlapping_qry_hits has_qry_overlap
  rw [Ne, List.length_eq_zero, List.filter_eq_nil_iff]
  push_neg
  constructor
  · rintro ⟨t, ht, hp⟩
    simp only [Bool.and_eq_true, decide_eq_true_eq] at hp
    exact ⟨t, ht, hp.1, hp.2⟩
  · rintro ⟨t, ht, hne, hint⟩
    exact ⟨t, ht, by simp [hne, hint]⟩

/-- C3: for a list of alignment hits sharing one query sequence (pairwise
distinct objects, here records with distinct contents), hit classification
returns the input's order-preserving partition in which a hit is unique
exactly when no other hit's query interval intersects its own, and
repetitive exactly when one does: both output lists are filters of the
input, each input hit lands in exactly one of them, and nothing else
appears. -/
theorem claim_C3 (hits : List NucmerHit) (hnd : hits.Nodup) :
    (get_unique_and_repetitive_from_contig_hits hits).1 =
        hits.filter (fun h => !decide (has_qry_overlap hits h)) ∧
    (get_unique_and_repetitive_from_contig_hits hits).2 =
        hits.filter (fun h => decide (has_qry_overlap hits h)) ∧
    (∀ h ∈ hits,
      (h ∈ (get_unique_and_repetitive_from_contig_hits hits).1 ↔ ¬ has_qry_overlap hits h) ∧
      (h ∈ (get_unique_and_repetitive_from_contig_hits hits).2 ↔ has_qry_overlap hits h) ∧
      ¬(h ∈ (get_unique_and_repetitive_from_contig_hits hits).1 ∧
        h ∈ (get_unique_and_repetitive_from_contig_hits hits).2)) ∧
    (∀ h, h ∈ (get_unique_and_repetitive_from_contig_hits hits).1 ∨
          h ∈ (get_unique_and_repetitive_from_contig_hits hits).2 → h ∈ hits) := by
  have hloop : ∀ (l a b : List NucmerHit),
      l.foldl (fun ur hit =>
        if (get_overlapping_qry_hits hits hit).length ≠ 0 then (ur.1, ur.2 ++ [hit])
        else (ur.1 ++ [hit], ur.2)) (a, b) =
      (a ++ l.filter (fun h => !decide (has_qry_overlap hits h)),
       b ++ l.filter (fun h => decide (has_qry_overlap hits h))) := by
    intro l
    induction l with
    | nil => simp
    | cons x xs ih =>
      intro a b
      simp only [List.foldl_cons]
      by_cases hx : has_qry_overlap hits x
      · have hx' : (get_overlapping_qry_hits hits x).length ≠ 0 :=
          (overlap_pred_iff hits x).mpr hx
        rw [if_pos hx', ih]
        simp [List.filter_cons, hx]
      · have hx' : ¬(get_overlapping_qry_hits hits x).length ≠ 0 := by
          simp only [overlap_pred_iff]; exact hx
        rw [if_neg hx', ih]
        simp [List.filter_cons, hx]
  have hsplit : get_unique_and_repetitive_from_contig_hits hits =
      (hits.filter (fun h => !decide (has_qry_overlap hits h)),
       hits.filter (fun h => decide (has_qry_overlap hits h))) := by
    unfold get_unique_and_repetitive_from_contig_hits
    simpa using hloop hits [] []
  rw [hsplit]
  refine ⟨rfl, rfl, ?_, ?_⟩
  · intro h hmem
    constructor
    · simp [List.mem_filter, hmem]
    constructor
    · simp [List.mem_filter, hmem]
    · rintro ⟨h1, h2⟩
      simp [List.mem_filter] at h1 h2
      exact h1.2 h2.2
  · intro h hm
    rcases hm with hm | hm <;> exact (List.mem_filter.mp hm).1

/-- Witness for C3 at a concrete two-hit group with disjoint query
intervals. -/
theorem claim_C3_witness :
    ([⟨0, 0, 5, 0, 9, 6, 10, "r", "q"⟩, ⟨1, 10, 15, 3, 7, 6, 5, "r", "q"⟩] :
      List NucmerHit).Nodup ∧
    (get_unique_and_repetitive_from_contig_hits
        [⟨0, 0, 5, 0, 9, 6, 10, "r", "q"⟩, ⟨1, 10, 15, 3, 7, 6, 5, "r", "q"⟩]).1 =
      List.filter (fun h => !decide (has_qry_overlap
        [⟨0, 0, 5, 0, 9, 6, 10, "r", "q"⟩, ⟨1, 10, 15, 3, 7, 6, 5, "r", "q"⟩] h))
        [⟨0, 0, 5, 0, 9, 6, 10, "r", "q"⟩, ⟨1, 10, 15, 3, 7, 6, 5, "r", "q"⟩] := by
  constructor
  · decide
  · exact (claim_C3 _ (by decide)).1

/-! ## Configuration validation: claim C7 -/

/-- `file_check` succeeds exactly when the referenced file, if any,
exists. -/
theorem file_check_ok_iff (file_exists : String → Bool) (f : Option String) :
    file_check file_exists f = Except.ok () ↔ ∀ n, f = some n → file_exists n = true := by
  cases f with
  | none => simp [file_check]
  | some n => by_cases h : file_exists n = true <;> simp [file_check, h]

/-- Sequencing two unit-valued checks succeeds exactly when both do. -/
theorem except_seq_ok_iff (a b : Except String Unit) :
    (a >>= fun _ => b) = Except.ok () ↔ a = Except.ok () ∧ b = Except.ok () := by
  cases a with
  | ok u => cases u; simp [Bind.bind, Except.bind]
  | error s => simp [Bind.bind, Except.bind]

/-- C7 counterexample: with the annotation directory and the reference
database BOTH supplied, and the interleaved reads file and the
forward/reverse pair BOTH supplied (all files existing), `Qc.__init__`
raises no error, contrary to the claim that mutually exclusive options
both supplied are rejected. -/
theorem claim_C7_counterexample :
    qc_init_check (fun _ => true) (some "embl_dir") (some "ref_db") "asm.fa"
      (some "fr.fq") (some "f.fq") (some "r.fq") "out" = Except.ok () := by rfl

/-- C7 (amended): construction fails exactly when the annotation directory
and reference database are BOTH absent, or a referenced input file
(assembly or reads) does not exist, or neither the interleaved-reads file
nor a complete forward/reverse pair is supplied.  Supplying both members
of a mutually exclusive pair is accepted (the annotation directory takes
precedence over the database; the interleaved file overrides the pair). -/
theorem claim_C7 (file_exists : String → Bool) (embl_dir ref_db : Option String)
    (assembly_fasta : String) (reads_fr reads_fwd reads_rev : Option String)
    ( output_prefix : String) :
    qc_init_check file_exists embl_dir ref_db assembly_fasta reads_fr reads_fwd reads_rev
        output_prefix = Except.ok () ↔
      (embl_dir.isSome ∨ ref_db.isSome) ∧
      file_exists assembly_fasta = true ∧
      (∀ f, reads_fr = some f → file_exists f = true) ∧
      (∀ f, reads_fwd = some f → file_exists f = true) ∧
      (∀ f, reads_rev = some f → file_exists f = true) ∧
      (reads_fr.isSome ∨ (reads_fwd.isSome ∧ reads_rev.isSome)) := by
  unfold qc_init_check
  by_cases hc : (embl_dir.isNone && ref_db.isNone) = true
  · rw [if_pos hc]
    simp only [Bool.and_eq_true, Option.isNone_iff_eq_none] at hc
    obtain ⟨h1, h2⟩ := hc
    subst h1
    subst h2
    simp
  · rw [if_neg hc]
    have hED : embl_dir.isSome ∨ ref_db.isSome := by
      rcases embl_dir with _ | e <;> rcases ref_db with _ | r <;> simp_all
    simp only [except_seq_ok_iff, file_check_ok_iff]
    cases reads_fr with
    | none =>
      by_cases hp : (reads_fwd.isSome && reads_rev.isSome) = true
      · simp_all
      · simp_all [Option.isSome_iff_ne_none]
    | some s =>
      simp_all

/-! ## Interval-list structure lemmas -/

/-- Every interval produced by the merge fold is valid when its inputs
are. -/
theorem mergeFold_valid : ∀ (rest : List Interval) (cur : Interval),
    cur.start ≤ cur.«end» → (∀ b ∈ rest, b.start ≤ b.«end») →
    ∀ x ∈ mergeFold cur rest, x.start ≤ x.«end»
  | [], cur, hcur, _, x, hx => by
    unfold mergeFold at hx
    simp at hx
    subst hx
    exact hcur
  | b :: rest, cur, hcur, hrest, x, hx => by
    unfold mergeFold at hx
    by_cases hb : b.start ≤ cur.«end» + 1
    · rw [if_pos hb] at hx
      exact mergeFold_valid rest ⟨cur.start, max cur.«end» b.«end»⟩
        (le_trans hcur (le_max_left _ _))
        (fun c hc => hrest c (List.mem_cons_of_mem b hc)) x hx
    · rw [if_neg hb] at hx
      rcases List.mem_cons.mp hx with hx | hx
      · subst hx; exact hcur
      · exact mergeFold_valid rest b (hrest b (List.mem_cons_self b rest))
          (fun c hc => hrest c (List.mem_cons_of_mem b hc)) x hx

/-- Structure of the merge fold on a start-sorted valid input within
`[lo, hi]`: the output intervals are valid, lie within `[lo, hi]`, start
at or after `cur.start`, and are pairwise separated by at least one
position. -/
theorem mergeFold_chain (lo hi : ℤ) : ∀ (rest : List Interval) (cur : Interval),
    lo ≤ cur.start → cur.start ≤ cur.«end» → cur.«end» ≤ hi →
    (∀ b ∈ rest, lo ≤ b.start ∧ b.start ≤ b.«end» ∧ b.«end» ≤ hi) →
    (∀ b ∈ rest, cur.start ≤ b.start) →
    rest.Pairwise (fun a b => a.start ≤ b.start) →
    (∀ x ∈ mergeFold cur rest,
      cur.start ≤ x.start ∧ lo ≤ x.start ∧ x.start ≤ x.«end» ∧ x.«end» ≤ hi) ∧
    (mergeFold cur rest).Pairwise (fun a b => a.«end» + 2 ≤ b.start)
  | [], cur, hlo, hcur, hhi, _, _, _ => by
    unfold mergeFold
    refine ⟨?_, ?_⟩
    · intro x hx
      simp at hx
      subst hx
      exact ⟨le_refl _, hlo, hcur, hhi⟩
    · simp
  | b :: rest, cur, hlo, hcur, hhi, hvalid, hge, hsorted => by
    unfold mergeFold
    by_cases hb : b.start ≤ cur.«end» + 1
    · rw [if_pos hb]
      exact mergeFold_chain lo hi rest ⟨cur.start, max cur.«end» b.«end»⟩
        hlo (le_trans hcur (le_max_left _ _))
        (max_le hhi (hvalid b (List.mem_cons_self b rest)).2.2)
        (fun c hc => hvalid c (List.mem_cons_of_mem b hc))
        (fun c hc => hge c (List.mem_cons_of_mem b hc))
        (List.Pairwise.sublist (List.sublist_cons_self b rest) hsorted)
    · rw [if_neg hb]
      push_neg at hb
      obtain ⟨hblo, hbval, hbhi⟩ := hvalid b (List.mem_cons_self b rest)
      have hrec := mergeFold_chain lo hi rest b hblo hbval hbhi
        (fun c hc => hvalid c (List.mem_cons_of_mem b hc))
        (fun c hc => (List.pairwise_cons.mp hsorted).1 c hc)
        (List.Pairwise.sublist (List.sublist_cons_self b rest) hsorted)
      refine ⟨?_, ?_⟩
      · intro x hx
        rcases List.mem_cons.mp hx with hx | hx
        · subst hx; exact ⟨le_refl _, hlo, hcur, hhi⟩
        · obtain ⟨h1, h2, h3, h4⟩ := hrec.1 x hx
          exact ⟨le_trans (le_trans (hge b (List.mem_cons_self b rest))
            (le_refl _)) (le_trans (le_refl _) h1), h2, h3, h4⟩
      · rw [List.pairwise_cons]
        refine ⟨?_, hrec.2⟩
        intro x hx
        have := (hrec.1 x hx).1
        omega

/-- Total length of a pairwise-separated valid interval list within
`[lo, hi]` is at most `hi - lo + 1`. -/
theorem length_sum_le_of_chain : ∀ (l : List Interval) (lo hi : ℤ),
    lo ≤ hi + 1 →
    (∀ a ∈ l, lo ≤ a.start ∧ a.start ≤ a.«end» ∧ a.«end» ≤ hi) →
    l.Pairwise (fun a b => a.«end» + 2 ≤ b.start) →
    length_sum_from_list l ≤ hi - lo + 1
  | [], lo, hi, hle, _, _ => by
    unfold length_sum_from_list
    simpa using by omega
  | a :: rest, lo, hi, hle, hvalid, hchain => by
    obtain ⟨halo, haval, hahi⟩ := hvalid a (List.mem_cons_self a rest)
    have hrec := length_sum_le_of_chain rest (a.«end» + 1) hi (by
      rcases rest with _ | ⟨b, rest'⟩
      · omega
      · have := (List.pairwise_cons.mp hchain).1 b (List.mem_cons_self b rest')
        have := (hvalid b (by simp)).2.1
        have := (hvalid b (by simp)).2.2
        omega)
      (fun c hc => by
        have h1 := (List.pairwise_cons.mp hchain).1 c hc
        have h2 := hvalid c (List.mem_cons_of_mem a hc)
        exact ⟨by omega, h2.2.1, h2.2.2⟩)
      (List.Pairwise.sublist (List.sublist_cons_self a rest) hchain)
    unfold length_sum_from_list at hrec ⊢
    simp only [List.map_cons, List.sum_cons]
    omega

/-- Total length of a valid interval list is nonnegative. -/
theorem length_sum_nonneg (l : List Interval) (hvalid : ∀ a ∈ l, a.start ≤ a.«end») :
    0 ≤ length_sum_from_list l := by
  induction l with
  | nil => simp [length_sum_from_list]
  | cons a rest ih =>
    have h1 := hvalid a (List.mem_cons_self a rest)
    have h2 := ih (fun c hc => hvalid c (List.mem_cons_of_mem a hc))
    unfold length_sum_from_list at h2 ⊢
    simp only [List.map_cons, List.sum_cons]
    omega

/-- Structure of a merged interval list whose inputs lie in `[lo, hi]`:
valid, within bounds, pairwise separated. -/
theorem merge_chain (l : List Interval) (lo hi : ℤ)
    (hvalid : ∀ a ∈ l, lo ≤ a.start ∧ a.start ≤ a.«end» ∧ a.«end» ≤ hi) :
    (∀ x ∈ merge_overlapping_in_list l,
      lo ≤ x.start ∧ x.start ≤ x.«end» ∧ x.«end» ≤ hi) ∧
    (merge_overlapping_in_list l).Pairwise (fun a b => a.«end» + 2 ≤ b.start) := by
  unfold merge_overlapping_in_list
  have hperm := List.perm_insertionSort Interval.lex_le l
  have hsorted := List.sorted_insertionSort Interval.lex_le l
  rcases hs : List.insertionSort Interval.lex_le l with _ | ⟨a, rest⟩
  · simp
  · rw [hs] at hperm hsorted
    have hmem : ∀ x ∈ a :: rest, lo ≤ x.start ∧ x.start ≤ x.«end» ∧ x.«end» ≤ hi :=
      fun x hx => hvalid x (hperm.mem_iff.mp hx)
    obtain ⟨halo, haval, hahi⟩ := hmem a (List.mem_cons_self a rest)
    have hstarts : (a :: rest).Pairwise (fun a b => a.start ≤ b.start) := by
      refine hsorted.imp ?_
      intro x y hxy
      unfold Interval.lex_le at hxy
      omega
    have := mergeFold_chain lo hi rest a halo haval hahi
      (fun c hc => hmem c (List.mem_cons_of_mem a hc))
      (fun c hc => (List.pairwise_cons.mp hstarts).1 c hc)
      (List.Pairwise.sublist (List.sublist_cons_self a rest) hstarts)
    exact ⟨fun x hx => (this.1 x hx).2, this.2⟩

/-- Merged coverage of intervals within `[0, L-1]` totals at most `L` and
at least `0`. -/
theorem merge_length_le (l : List Interval) (L : ℤ) (hL : 0 < L)
    (hvalid : ∀ a ∈ l, 0 ≤ a.start ∧ a.start ≤ a.«end» ∧ a.«end» ≤ L - 1) :
    0 ≤ length_sum_from_list (merge_overlapping_in_list l) ∧
    length_sum_from_list (merge_overlapping_in_list l) ≤ L := by
  obtain ⟨hval, hchain⟩ := merge_chain l 0 (L - 1) hvalid
  constructor
  · exact length_sum_nonneg _ (fun a ha => (hval a ha).2.1)
  · have := length_sum_le_of_chain (merge_overlapping_in_list l) 0 (L - 1)
      (by omega) hval hchain
    omega

/-! ## Reference-sequence scoring: claim C1 -/

/-- C1: for a reference sequence with at least one alignment hit (hits
lying inside the reference, as alignment hits do), `assembled` is true
exactly when the merged reference-covered length over the sequence length
lies in `[0.9, 1.1]`, and `assembled_ok` is true exactly when there is one
single hit whose raw reference-side alignment length over the sequence
length lies in `[0.9, 1.1]`.  The source tests only `0.9 <=` for
`assembled`; the upper bound holds because merged coverage within the
reference can never exceed the sequence length. -/
theorem claim_C1 (hit_list : List NucmerHit) (ref_length : ℤ)
    (hne : hit_list ≠ []) (hL : 0 < ref_length)
    (hbounds : ∀ h ∈ hit_list, 0 ≤ h.ref_coords.start ∧ h.ref_coords.«end» ≤ ref_length - 1) :
    ((calculate_refseq_assembly_stats hit_list ref_length).assembled = true ↔
      ((0.9 : ℚ) ≤ (length_sum_from_list (merge_overlapping_in_list
          (hit_list.map NucmerHit.ref_coords)) : ℚ) / (ref_length : ℚ) ∧
        (length_sum_from_list (merge_overlapping_in_list
          (hit_list.map NucmerHit.ref_coords)) : ℚ) / (ref_length : ℚ) ≤ 1.1)) ∧
    ((calculate_refseq_assembly_stats hit_list ref_length).assembled_ok = true ↔
      ∃ h, hit_list = [h] ∧
        (0.9 : ℚ) ≤ (h.hit_length_ref : ℚ) / (ref_length : ℚ) ∧
        (h.hit_length_ref : ℚ) / (ref_length : ℚ) ≤ 1.1) := by
  rcases hit_list with _ | ⟨h0, t⟩
  · exact absurd rfl hne
  have hvalid : ∀ a ∈ (h0 :: t).map NucmerHit.ref_coords,
      0 ≤ a.start ∧ a.start ≤ a.«end» ∧ a.«end» ≤ ref_length - 1 := by
    intro a ha
    obtain ⟨h, hh, rfl⟩ := List.mem_map.mp ha
    obtain ⟨h1, h2⟩ := hbounds h hh
    refine ⟨h1, ?_, h2⟩
    unfold NucmerHit.ref_coords
    simp [min_le_iff, le_max_iff]
  obtain ⟨hge0, hleL⟩ := merge_length_le _ ref_length hL hvalid
  have hLQ : (0 : ℚ) < (ref_length : ℚ) := by exact_mod_cast hL
  constructor
  · unfold calculate_refseq_assembly_stats
    simp only [decide_eq_true_eq]
    constructor
    · intro hlow
      refine ⟨hlow, ?_⟩
      have : (length_sum_from_list (merge_overlapping_in_list
          ((h0 :: t).map NucmerHit.ref_coords)) : ℚ) / (ref_length : ℚ) ≤ 1 := by
        rw [div_le_one hLQ]
        exact_mod_cast hleL
      linarith
    · exact fun h => h.1
  · unfold calculate_refseq_assembly_stats
    simp only [Bool.and_eq_true, decide_eq_true_eq]
    constructor
    · rintro ⟨hlen, hband⟩
      have ht : t = [] := by simp at hlen; exact hlen
      subst ht
      exact ⟨h0, rfl, hband⟩
    · rintro ⟨h, hh, hband⟩
      have : h0 = h ∧ t = [] := by
        cases hh
        exact ⟨rfl, rfl⟩
      obtain ⟨rfl, rfl⟩ := this
      exact ⟨by simp, hband⟩

/-- Witness for C1: one hit covering reference positions 0-8 of a 10-base
sequence, with raw reference-side alignment length 9 (ratio 0.9). -/
theorem claim_C1_witness :
    (([⟨0, 0, 8, 0, 8, 9, 9, "r", "q"⟩] : List NucmerHit) ≠ [] ∧
     (0 : ℤ) < 10 ∧
     (∀ h ∈ ([⟨0, 0, 8, 0, 8, 9, 9, "r", "q"⟩] : List NucmerHit),
       0 ≤ h.ref_coords.start ∧ h.ref_coords.«end» ≤ 10 - 1)) ∧
    (((calculate_refseq_assembly_stats [⟨0, 0, 8, 0, 8, 9, 9, "r", "q"⟩] 10).assembled = true ↔
      ((0.9 : ℚ) ≤ (length_sum_from_list (merge_overlapping_in_list
          (([⟨0, 0, 8, 0, 8, 9, 9, "r", "q"⟩] : List NucmerHit).map NucmerHit.ref_coords)) : ℚ) /
          ((10 : ℤ) : ℚ) ∧
        (length_sum_from_list (merge_overlapping_in_list
          (([⟨0, 0, 8, 0, 8, 9, 9, "r", "q"⟩] : List NucmerHit).map NucmerHit.ref_coords)) : ℚ) /
          ((10 : ℤ) : ℚ) ≤ 1.1)) ∧
    ((calculate_refseq_assembly_stats [⟨0, 0, 8, 0, 8, 9, 9, "r", "q"⟩] 10).assembled_ok = true ↔
      ∃ h, ([⟨0, 0, 8, 0, 8, 9, 9, "r", "q"⟩] : List NucmerHit) = [h] ∧
        (0.9 : ℚ) ≤ (h.hit_length_ref : ℚ) / ((10 : ℤ) : ℚ) ∧
        (h.hit_length_ref : ℚ) / ((10 : ℤ) : ℚ) ≤ 1.1)) :=
  ⟨⟨by decide, by decide, by decide⟩,
   claim_C1 [⟨0, 0, 8, 0, 8, 9, 9, "r", "q"⟩] 10 (by decide) (by decide) (by decide)⟩

/-! ## CDS scoring: claims C2 and C10 -/

/-- C2: for a CDS with at least one alignment hit against a non-empty
assembly, `assembled` is true exactly when the merged query-side covered
length over the CDS reference length lies in `[0.9, 1.1]`, and
`assembled_ok` is true exactly when there is one single hit whose contig
region contains an open reading frame of length at least `0.9` times the
CDS reference length (via the abstracted `has_orf`); any hit count other
than one forces `assembled_ok = false`. -/
theorem claim_C2 (has_orf : String → ℤ → ℤ → ℚ → Bool) (rec : CdsStats)
    (hit_list : List NucmerHit) (hne : hit_list ≠ []) :
    ((update_cds_stats has_orf rec hit_list).assembled = true ↔
      ((0.9 : ℚ) ≤ (length_sum_from_list (merge_overlapping_in_list
          (hit_list.map NucmerHit.qry_coords)) : ℚ) / (rec.length_in_ref : ℚ) ∧
       (length_sum_from_list (merge_overlapping_in_list
          (hit_list.map NucmerHit.qry_coords)) : ℚ) / (rec.length_in_ref : ℚ) ≤ 1.1)) ∧
    ((update_cds_stats has_orf rec hit_list).assembled_ok = true ↔
      ∃ h, hit_list = [h] ∧
        has_orf h.ref_name h.ref_coords.start h.ref_coords.«end»
          ((0.9 : ℚ) * (rec.length_in_ref : ℚ)) = true) ∧
    (hit_list.length ≠ 1 → (update_cds_stats has_orf rec hit_list).assembled_ok = false) := by
  refine ⟨?_, ?_, ?_⟩
  · unfold update_cds_stats
    simp only [decide_eq_true_eq]
  · unfold update_cds_stats
    rcases hit_list with _ | ⟨h0, t⟩
    · exact absurd rfl hne
    rcases t with _ | ⟨h1, t'⟩
    · simp
    · simp
  · intro hlen
    unfold update_cds_stats
    rcases hit_list with _ | ⟨h0, t⟩
    · exact absurd rfl hne
    rcases t with _ | ⟨h1, t'⟩
    · simp at hlen
    · simp

/-- Witness for C2: the claim's example, a CDS of reference length 300
covered by one hit spanning query positions 0-294 (295 bases), with an
always-qualifying ORF test. -/
theorem claim_C2_witness :
    (([⟨0, 0, 294, 0, 294, 295, 295, "contig1", "cds1"⟩] : List NucmerHit) ≠ []) ∧
    (((update_cds_stats (fun _ _ _ _ => true) (init_cds_stats "seq" ⟨0, 299⟩ "+")
        [⟨0, 0, 294, 0, 294, 295, 295, "contig1", "cds1"⟩]).assembled = true ↔
      ((0.9 : ℚ) ≤ (length_sum_from_list (merge_overlapping_in_list
          (([⟨0, 0, 294, 0, 294, 295, 295, "contig1", "cds1"⟩] : List NucmerHit).map
            NucmerHit.qry_coords)) : ℚ) /
          ((init_cds_stats "seq" ⟨0, 299⟩ "+").length_in_ref : ℚ) ∧
       (length_sum_from_list (merge_overlapping_in_list
          (([⟨0, 0, 294, 0, 294, 295, 295, "contig1", "cds1"⟩] : List NucmerHit).map
            NucmerHit.qry_coords)) : ℚ) /
          ((init_cds_stats "seq" ⟨0, 299⟩ "+").length_in_ref : ℚ) ≤ 1.1)) ∧
    ((update_cds_stats (fun _ _ _ _ => true) (init_cds_stats "seq" ⟨0, 299⟩ "+")
        [⟨0, 0, 294, 0, 294, 295, 295, "contig1", "cds1"⟩]).assembled_ok = true ↔
      ∃ h, ([⟨0, 0, 294, 0, 294, 295, 295, "contig1", "cds1"⟩] : List NucmerHit) = [h] ∧
        (fun (_ : String) (_ _ : ℤ) (_ : ℚ) => true) h.ref_name h.ref_coords.start
          h.ref_coords.«end»
          ((0.9 : ℚ) * ((init_cds_stats "seq" ⟨0, 299⟩ "+").length_in_ref : ℚ)) = true) ∧
    (([⟨0, 0, 294, 0, 294, 295, 295, "contig1", "cds1"⟩] : List NucmerHit).length ≠ 1 →
      (update_cds_stats (fun _ _ _ _ => true) (init_cds_stats "seq" ⟨0, 299⟩ "+")
        [⟨0, 0, 294, 0, 294, 295, 295, "contig1", "cds1"⟩]).assembled_ok = false)) :=
  ⟨by decide,
   claim_C2 (fun _ _ _ _ => true) (init_cds_stats "seq" ⟨0, 299⟩ "+")
     [⟨0, 0, 294, 0, 294, 295, 295, "contig1", "cds1"⟩] (by decide)⟩

/-- Entries whose key differs from the updated one pass through
`updateAssoc` unchanged. -/
theorem updateAssoc_mem_of_ne (l : List (String × CdsStats)) (n : String)
    (f : CdsStats → CdsStats) (p : String × CdsStats) (hp : p ∈ l) (hne : p.1 ≠ n) :
    p ∈ updateAssoc l n f := by
  unfold updateAssoc
  refine List.mem_map.mpr ⟨p, hp, ?_⟩
  rw [if_neg hne]

/-- An `updateAssoc` output entry whose key differs from the updated one
was already in the input. -/
theorem updateAssoc_mem_rev (l : List (String × CdsStats)) (n : String)
    (f : CdsStats → CdsStats) (q : String × CdsStats) (hq : q ∈ updateAssoc l n f)
    (hne : q.1 ≠ n) : q ∈ l := by
  unfold updateAssoc at hq
  obtain ⟨p, hp, hpq⟩ := List.mem_map.mp hq
  by_cases h : p.1 = n
  · rw [if_pos h] at hpq
    exfalso
    apply hne
    rw [← hpq]
    exact h
  · rw [if_neg h] at hpq
    rw [← hpq]
    exact hp

/-- A CDS record whose name receives no hits passes through the CDS
scorer untouched. -/
theorem calc_cds_mem_of_no_hits (has_orf : String → ℤ → ℤ → ℚ → Bool) :
    ∀ (hits : List (String × List NucmerHit)) (cds_list : List (String × CdsStats))
      (p : String × CdsStats), p ∈ cds_list → p.1 ∉ hits.map Prod.fst →
      p ∈ calculate_cds_assembly_stats has_orf false cds_list hits
  | [], cds_list, p, hp, _ => by
    unfold calculate_cds_assembly_stats
    simpa using hp
  | h :: hits', cds_list, p, hp, hno => by
    unfold calculate_cds_assembly_stats
    simp only [if_neg (Bool.false_ne_true), List.foldl_cons]
    have hne : p.1 ≠ h.1 := by
      intro hcontra
      exact hno (by simp [hcontra])
    have h1 : p ∈ updateAssoc cds_list h.1 (fun r => update_cds_stats has_orf r h.2) :=
      updateAssoc_mem_of_ne cds_list h.1 _ p hp hne
    have h2 := calc_cds_mem_of_no_hits has_orf hits'
      (updateAssoc cds_list h.1 (fun r => update_cds_stats has_orf r h.2)) p h1
      (fun hx => hno (by simp at hx ⊢; exact Or.inr hx))
    unfold calculate_cds_assembly_stats at h2
    simpa using h2

/-- Conversely, a scorer-output record whose name receives no hits was
already in the input. -/
theorem calc_cds_mem_rev_of_no_hits (has_orf : String → ℤ → ℤ → ℚ → Bool) :
    ∀ (hits : List (String × List NucmerHit)) (cds_list : List (String × CdsStats))
      (q : String × CdsStats),
      q ∈ calculate_cds_assembly_stats has_orf false cds_list hits →
      q.1 ∉ hits.map Prod.fst → q ∈ cds_list
  | [], cds_list, q, hq, _ => by
    unfold calculate_cds_assembly_stats at hq
    simpa using hq
  | h :: hits', cds_list, q, hq, hno => by
    unfold calculate_cds_assembly_stats at hq
    simp only [if_neg (Bool.false_ne_true), List.foldl_cons] at hq
    have hne : q.1 ≠ h.1 := by
      intro hcontra
      exact hno (by simp [hcontra])
    have h2 := calc_cds_mem_rev_of_no_hits has_orf hits'
      (updateAssoc cds_list h.1 (fun r => update_cds_stats has_orf r h.2)) q
      (by unfold calculate_cds_assembly_stats; simpa using hq)
      (fun hx => hno (by simp at hx ⊢; exact Or.inr hx))
    exact updateAssoc_mem_rev cds_list h.1 _ q h2 hne

/-- The CDS scorer never adds or removes records. -/
theorem calc_cds_length (has_orf : String → ℤ → ℤ → ℚ → Bool) :
    ∀ (hits : List (String × List NucmerHit)) (cds_list : List (String × CdsStats)),
      (calculate_cds_assembly_stats has_orf false cds_list hits).length = cds_list.length
  | [], cds_list => by
    unfold calculate_cds_assembly_stats
    simp
  | h :: hits', cds_list => by
    unfold calculate_cds_assembly_stats
    simp only [if_neg (Bool.false_ne_true), List.foldl_cons]
    have h2 := calc_cds_length has_orf hits'
      (updateAssoc cds_list h.1 (fun r => update_cds_stats has_orf r h.2))
    unfold calculate_cds_assembly_stats at h2
    simp only [if_neg (Bool.false_ne_true)] at h2
    rw [h2]
    unfold updateAssoc
    simp

/-- In an association list with distinct keys, entries are determined by
their key. -/
theorem nodup_keys_unique (l : List (String × CdsStats)) (hkeys : (l.map Prod.fst).Nodup)
    (a b : String × CdsStats) (ha : a ∈ l) (hb : b ∈ l) (hab : a.1 = b.1) : a = b := by
  induction l with
  | nil => simp at ha
  | cons x xs ih =>
    simp only [List.map_cons, List.nodup_cons] at hkeys
    rcases List.mem_cons.mp ha with ha' | ha' <;> rcases List.mem_cons.mp hb with hb' | hb'
    · rw [ha', hb']
    · exfalso
      apply hkeys.1
      rw [← ha', hab]
      exact List.mem_map.mpr ⟨b, hb', rfl⟩
    · exfalso
      apply hkeys.1
      rw [← hb', ← hab]
      exact List.mem_map.mpr ⟨a, ha', rfl⟩
    · exact ih hkeys.2 ha' hb'

/-- C10: a CDS record created by `Qc._write_cds_seqs` that receives zero
alignment hits against a non-empty assembly is never touched by the CDS
scorer: it keeps `assembled = assembled_ok = false` from creation, its
`bases_assembled` and `number_of_contig_hits` keys are never set, and it
still counts toward `cds_number` but toward neither `cds_assembled` nor
`cds_assembled_ok` (removing its entries leaves both counts unchanged). -/
theorem claim_C10 (has_orf : String → ℤ → ℤ → ℚ → Bool)
    (cds_list : List (String × CdsStats)) (hits : List (String × List NucmerHit))
    (name fa_id : String) (coords : Interval) (strand : String)
    (hmem : (name, init_cds_stats fa_id coords strand) ∈ cds_list)
    (hkeys : (cds_list.map Prod.fst).Nodup)
    (hnoh : name ∉ hits.map Prod.fst) :
    (name, init_cds_stats fa_id coords strand) ∈
        calculate_cds_assembly_stats has_orf false cds_list hits ∧
    (∀ q ∈ calculate_cds_assembly_stats has_orf false cds_list hits,
      q.1 = name → q = (name, init_cds_stats fa_id coords strand)) ∧
    ((init_cds_stats fa_id coords strand).assembled = false ∧
     (init_cds_stats fa_id coords strand).assembled_ok = false ∧
     (init_cds_stats fa_id coords strand).bases_assembled = none ∧
     (init_cds_stats fa_id coords strand).number_of_contig_hits = none) ∧
    (calculate_cds_assembly_stats has_orf false cds_list hits).length = cds_list.length ∧
    ((calculate_cds_assembly_stats has_orf false cds_list hits).filter
        (fun p => p.2.assembled)).length =
      (((calculate_cds_assembly_stats has_orf false cds_list hits).filter
        (fun p => p.1 != name)).filter (fun p => p.2.assembled)).length ∧
    ((calculate_cds_assembly_stats has_orf false cds_list hits).filter
        (fun p => p.2.assembled_ok)).length =
      (((calculate_cds_assembly_stats has_orf false cds_list hits).filter
        (fun p => p.1 != name)).filter (fun p => p.2.assembled_ok)).length := by
  have hinit : (name, init_cds_stats fa_id coords strand) ∈
      calculate_cds_assembly_stats has_orf false cds_list hits :=
    calc_cds_mem_of_no_hits has_orf hits cds_list _ hmem hnoh
  have huniq : ∀ q ∈ calculate_cds_assembly_stats has_orf false cds_list hits,
      q.1 = name → q = (name, init_cds_stats fa_id coords strand) := by
    intro q hq hqname
    have hq' : q ∈ cds_list :=
      calc_cds_mem_rev_of_no_hits has_orf hits cds_list q hq (by rw [hqname]; exact hnoh)
    exact nodup_keys_unique cds_list hkeys q _ hq' hmem hqname
  refine ⟨hinit, huniq, ⟨rfl, rfl, rfl, rfl⟩, calc_cds_length has_orf hits cds_list, ?_, ?_⟩
  · have hcong : (calculate_cds_assembly_stats has_orf false cds_list hits).filter
        (fun p => p.2.assembled) =
        (calculate_cds_assembly_stats has_orf false cds_list hits).filter
        (fun p => (p.1 != name) && p.2.assembled) := by
      apply List.filter_congr
      intro q hq
      by_cases hqn : q.1 = name
      · have := huniq q hq hqn
        subst this
        simp [init_cds_stats]
      · simp [hqn]
    rw [hcong, ← List.filter_filter, List.filter_comm]
  · have hcong : (calculate_cds_assembly_stats has_orf false cds_list hits).filter
        (fun p => p.2.assembled_ok) =
        (calculate_cds_assembly_stats has_orf false cds_list hits).filter
        (fun p => (p.1 != name) && p.2.assembled_ok) := by
      apply List.filter_congr
      intro q hq
      by_cases hqn : q.1 = name
      · have := huniq q hq hqn
        subst this
        simp [init_cds_stats]
      · simp [hqn]
    rw [hcong, ← List.filter_filter, List.filter_comm]

/-- Witness for C10: a one-CDS dictionary where all hits target a
different CDS name. -/
theorem claim_C10_witness :
    (("cds1", init_cds_stats "seq" ⟨0, 299⟩ "+") ∈
       ([("cds1", init_cds_stats "seq" ⟨0, 299⟩ "+")] : List (String × CdsStats)) ∧
     (([("cds1", init_cds_stats "seq" ⟨0, 299⟩ "+")] :
        List (String × CdsStats)).map Prod.fst).Nodup ∧
     "cds1" ∉ ([("other", ([] : List NucmerHit))] :
        List (String × List NucmerHit)).map Prod.fst) ∧
    (("cds1", init_cds_stats "seq" ⟨0, 299⟩ "+") ∈
        calculate_cds_assembly_stats (fun _ _ _ _ => false) false
          [("cds1", init_cds_stats "seq" ⟨0, 299⟩ "+")] [("other", [])] ∧
     (∀ q ∈ calculate_cds_assembly_stats (fun _ _ _ _ => false) false
          [("cds1", init_cds_stats "seq" ⟨0, 299⟩ "+")] [("other", [])],
        q.1 = "cds1" → q = ("cds1", init_cds_stats "seq" ⟨0, 299⟩ "+")) ∧
     ((init_cds_stats "seq" ⟨0, 299⟩ "+").assembled = false ∧
      (init_cds_stats "seq" ⟨0, 299⟩ "+").assembled_ok = false ∧
      (init_cds_stats "seq" ⟨0, 299⟩ "+").bases_assembled = none ∧
      (init_cds_stats "seq" ⟨0, 299⟩ "+").number_of_contig_hits = none) ∧
     (calculate_cds_assembly_stats (fun _ _ _ _ => false) false
        [("cds1", init_cds_stats "seq" ⟨0, 299⟩ "+")] [("other", [])]).length =
       ([("cds1", init_cds_stats "seq" ⟨0, 299⟩ "+")] : List (String × CdsStats)).length ∧
     ((calculate_cds_assembly_stats (fun _ _ _ _ => false) false
        [("cds1", init_cds_stats "seq" ⟨0, 299⟩ "+")] [("other", [])]).filter
          (fun p => p.2.assembled)).length =
       (((calculate_cds_assembly_stats (fun _ _ _ _ => false) false
        [("cds1", init_cds_stats "seq" ⟨0, 299⟩ "+")] [("other", [])]).filter
          (fun p => p.1 != "cds1")).filter (fun p => p.2.assembled)).length ∧
     ((calculate_cds_assembly_stats (fun _ _ _ _ => false) false
        [("cds1", init_cds_stats "seq" ⟨0, 299⟩ "+")] [("other", [])]).filter
          (fun p => p.2.assembled_ok)).length =
       (((calculate_cds_assembly_stats (fun _ _ _ _ => false) false
        [("cds1", init_cds_stats "seq" ⟨0, 299⟩ "+")] [("other", [])]).filter
          (fun p => p.1 != "cds1")).filter (fun p => p.2.assembled_ok)).length) :=
  ⟨⟨by decide, by decide, by decide⟩,
   claim_C10 (fun _ _ _ _ => false) [("cds1", init_cds_stats "seq" ⟨0, 299⟩ "+")]
     [("other", [])] "cds1" "seq" ⟨0, 299⟩ "+" (by decide) (by decide) (by decide)⟩

/-! ## Coverage scan: claim C4 -/

theorem getD_drop (l : List ℕ) (n j : ℕ) : (l.drop n).getD j 0 = l.getD (n + j) 0 := by
  induction n generalizing l with
  | zero => simp
  | succ m ih =>
    cases l with
    | nil => simp
    | cons d rest =>
      simp only [List.drop_succ_cons]
      rw [ih rest]
      have : m + 1 + j = (m + j) + 1 := by omega
      rw [this, List.getD_cons_succ]

theorem fg_le_length (mc : ℕ) (l : List ℕ) : first_good_index mc l ≤ l.length :=
  List.findIdx_le_length _

theorem fg_bad_before (mc : ℕ) (l : List ℕ) (j : ℕ) (hj : j < first_good_index mc l) :
    l.getD j 0 < mc := by
  have hlen : j < l.length := lt_of_lt_of_le hj (fg_le_length mc l)
  have := List.not_of_lt_findIdx hj
  rw [List.getD_eq_getElem _ _ hlen]
  simp only [decide_eq_false_iff_not, not_le] at this
  exact this

theorem fg_good_at (mc : ℕ) (l : List ℕ) (h : first_good_index mc l < l.length) :
    mc ≤ l.getD (first_good_index mc l) 0 := by
  have := @List.findIdx_getElem _ (fun d => decide (mc ≤ d)) l h
  rw [List.getD_eq_getElem _ _ h]
  simpa using this

theorem fg_cons_good (mc d : ℕ) (rest : List ℕ) (hd : mc ≤ d) :
    first_good_index mc (d :: rest) = 0 := by
  unfold first_good_index
  rw [List.findIdx_cons]
  simp [hd]

theorem fg_cons_bad (mc d : ℕ) (rest : List ℕ) (hd : d < mc) :
    first_good_index mc (d :: rest) = first_good_index mc rest + 1 := by
  unfold first_good_index
  rw [List.findIdx_cons]
  have : decide (mc ≤ d) = false := by simp; omega
  simp [this]

theorem isMaxRun_nil (mc : ℕ) (s e : ℕ) : ¬ isMaxRun mc [] s e := by
  rintro ⟨_, h2, _⟩
  simp at h2

theorem isMaxRun_cons_good {mc d : ℕ} {rest : List ℕ} (hd : mc ≤ d) (s e : ℕ) :
    isMaxRun mc (d :: rest) s e ↔ 1 ≤ s ∧ 1 ≤ e ∧ isMaxRun mc rest (s - 1) (e - 1) := by
  unfold isMaxRun
  constructor
  · rintro ⟨h1, h2, h3, h4, h5⟩
    have hs1 : 1 ≤ s := by
      by_contra hc
      have hs0 : s = 0 := by omega
      have := h3 0 (by omega) (by omega)
      simp at this
      omega
    refine ⟨hs1, by omega, by omega, by simp at h2; omega, ?_, ?_, ?_⟩
    · intro j hj1 hj2
      have := h3 (j + 1) (by omega) (by omega)
      simpa using this
    · rcases h4 with h4 | h4
      · omega
      · rcases Nat.eq_or_lt_of_le hs1 with hs | hs
        · left; omega
        · right
          have : s - 1 = (s - 2) + 1 := by omega
          rw [this, List.getD_cons_succ] at h4
          have : s - 1 - 1 = s - 2 := by omega
          rw [this]
          exact h4
    · rcases h5 with h5 | h5
      · left; simp at h5 ⊢; omega
      · right
        have he1 : e + 1 = e + 1 := rfl
        have : e + 1 = e + 1 := rfl
        have hge : 1 ≤ e := by omega
        have heq : e + 1 = (e - 1 + 1) + 1 := by omega
        rw [heq, List.getD_cons_succ] at h5
        exact h5
  · rintro ⟨hs1, he1, h1, h2, h3, h4, h5⟩
    have hse : s ≤ e := by omega
    refine ⟨hse, by simp; omega, ?_, ?_, ?_⟩
    · intro j hj1 hj2
      have hj0 : 1 ≤ j := by omega
      have := h3 (j - 1) (by omega) (by omega)
      have heq : j = (j - 1) + 1 := by omega
      rw [heq, List.getD_cons_succ]
      exact this
    · right
      rcases Nat.eq_or_lt_of_le hs1 with hs | hs
      · rw [← hs]
        simpa using hd
      · have heqs : s - 1 = (s - 2) + 1 := by omega
        rw [heqs, List.getD_cons_succ]
        rcases h4 with h4 | h4
        · omega
        · have : s - 1 - 1 = s - 2 := by omega
          rw [this] at h4
          exact h4
    · have hee : 1 ≤ e := by omega
      have heq : e - 1 + 1 = e := by omega
      rw [heq] at h5
      rcases h5 with h5 | h5
      · left
        simp
        omega
      · right
        rw [List.getD_cons_succ]
        exact h5

theorem isMaxRun_cons_bad {mc d : ℕ} {rest : List ℕ} (hd : d < mc) (k : ℕ)
    (hk : first_good_index mc rest = k) (s e : ℕ) :
    isMaxRun mc (d :: rest) s e ↔
      ((s = 0 ∧ e = k) ∨
       (∃ s' e', isMaxRun mc (rest.drop (k + 1)) s' e' ∧
         s = k + 2 + s' ∧ e = k + 2 + e')) := by
  have hk_le : k ≤ rest.length := hk ▸ fg_le_length mc rest
  have hbadb : ∀ j, j < k → rest.getD j 0 < mc := by
    intro j hj
    exact fg_bad_before mc rest j (by rw [hk]; exact hj)
  have hgoodk : k < rest.length → mc ≤ rest.getD k 0 := by
    intro h
    have := fg_good_at mc rest (by rw [hk]; exact h)
    rwa [hk] at this
  have hdroplen : (rest.drop (k + 1)).length = rest.length - (k + 1) := List.length_drop _ _
  unfold isMaxRun
  constructor
  · rintro ⟨h1, h2, h3, h4, h5⟩
    simp only [List.length_cons] at h2 h5
    rcases Nat.eq_zero_or_pos s with hs0 | hs1
    · left
      refine ⟨hs0, ?_⟩
      have hek1 : e ≤ k := by
        by_contra hc
        push_neg at hc
        have hklen : k < rest.length := by omega
        have hbad := h3 (k + 1) (by omega) (by omega)
        rw [List.getD_cons_succ] at hbad
        have hgood := hgoodk hklen
        omega
      have hek2 : k ≤ e := by
        by_contra hc
        push_neg at hc
        rcases h5 with h5 | h5
        · omega
        · rw [List.getD_cons_succ] at h5
          have := hbadb e (by omega)
          omega
      omega
    · right
      have hs1' : mc ≤ (d :: rest).getD (s - 1) 0 := by
        rcases h4 with h4 | h4
        · omega
        · exact h4
      have hs2 : 2 ≤ s := by
        by_contra hc
        have : s = 1 := by omega
        rw [this] at hs1'
        simp at hs1'
        omega
      have hgood_s2 : mc ≤ rest.getD (s - 2) 0 := by
        have heq : s - 1 = (s - 2) + 1 := by omega
        rw [heq, List.getD_cons_succ] at hs1'
        exact hs1'
      have hsk : k + 2 ≤ s := by
        by_contra hc
        push_neg at hc
        have := hbadb (s - 2) (by omega)
        omega
      refine ⟨s - (k + 2), e - (k + 2), ⟨by omega, by omega, ?_, ?_, ?_⟩, by omega, by omega⟩
      · intro j hj1 hj2
        rw [getD_drop]
        have := h3 (k + 2 + j) (by omega) (by omega)
        have heq : k + 2 + j = (k + 1 + j) + 1 := by omega
        rw [heq, List.getD_cons_succ] at this
        exact this
      · rcases Nat.eq_or_lt_of_le hsk with hs | hs
        · left
          omega
        · right
          rw [getD_drop]
          have heq : k + 1 + (s - (k + 2) - 1) = s - 2 := by omega
          rw [heq]
          exact hgood_s2
      · rcases h5 with h5 | h5
        · left
          omega
        · right
          rw [getD_drop]
          rw [List.getD_cons_succ] at h5
          have heq2 : k + 1 + (e - (k + 2) + 1) = e := by omega
          rw [heq2]
          exact h5
  · rintro (⟨hs0, hek⟩ | ⟨s', e', ⟨h1, h2, h3, h4, h5⟩, hs, he⟩)
    · subst hs0
      subst hek
      refine ⟨by omega, by simp; omega, ?_, Or.inl rfl, ?_⟩
      · intro j hj1 hj2
        rcases Nat.eq_zero_or_pos j with hj0 | hj0
        · subst hj0
          simpa using hd
        · have heq : j = (j - 1) + 1 := by omega
          rw [heq, List.getD_cons_succ]
          exact hbadb (j - 1) (by omega)
      · rcases Nat.eq_or_lt_of_le hk_le with hkl | hkl
        · left
          simp
          omega
        · right
          rw [List.getD_cons_succ]
          exact hgoodk hkl
    · rw [hdroplen] at h2
      have hlen : k + 2 ≤ rest.length := by omega
      have hklen : k < rest.length := by omega
      subst hs
      subst he
      refine ⟨by omega, by simp; omega, ?_, ?_, ?_⟩
      · intro j hj1 hj2
        have heq : j = (j - 1) + 1 := by omega
        rw [heq, List.getD_cons_succ]
        have := h3 (j - 1 - (k + 1)) (by omega) (by omega)
        rw [getD_drop] at this
        have heq2 : k + 1 + (j - 1 - (k + 1)) = j - 1 := by omega
        rw [heq2] at this
        exact this
      · right
        have heq : k + 2 + s' - 1 = (k + s') + 1 := by omega
        rw [heq, List.getD_cons_succ]
        rcases Nat.eq_zero_or_pos s' with hs0 | hs0
        · subst hs0
          simpa using hgoodk hklen
        · rcases h4 with h4 | h4
          · omega
          · rw [getD_drop] at h4
            have heq2 : k + 1 + (s' - 1) = k + s' := by omega
            rw [heq2] at h4
            exact h4
      · rcases h5 with h5 | h5
        · left
          simp
          omega
        · right
          have heq : k + 2 + e' + 1 = (k + 1 + (e' + 1)) + 1 := by omega
          rw [heq, List.getD_cons_succ]
          rw [getD_drop] at h5
          exact h5

theorem loop_cons_bad_none {mc d : ℕ} (rest : List ℕ) (i : ℕ) (acc : List Interval)
    (h : d < mc) :
    low_cov_loop mc (d :: rest) i none acc = low_cov_loop mc rest (i + 1) (some i) acc := by
  conv_lhs => rw [low_cov_loop]
  rw [if_pos h]
  rfl

theorem loop_cons_bad_some {mc d : ℕ} (rest : List ℕ) (i s0 : ℕ) (acc : List Interval)
    (h : d < mc) :
    low_cov_loop mc (d :: rest) i (some s0) acc =
      low_cov_loop mc rest (i + 1) (some s0) acc := by
  conv_lhs => rw [low_cov_loop]
  rw [if_pos h]
  rfl

theorem loop_cons_good_none {mc d : ℕ} (rest : List ℕ) (i : ℕ) (acc : List Interval)
    (h : ¬ d < mc) :
    low_cov_loop mc (d :: rest) i none acc = low_cov_loop mc rest (i + 1) none acc := by
  conv_lhs => rw [low_cov_loop]
  rw [if_neg h]

theorem loop_cons_good_some {mc d : ℕ} (rest : List ℕ) (i s0 : ℕ) (acc : List Interval)
    (h : ¬ d < mc) :
    low_cov_loop mc (d :: rest) i (some s0) acc =
      low_cov_loop mc rest (i + 1) none (acc ++ [⟨(s0 : ℤ), (i : ℤ) - 1⟩]) := by
  conv_lhs => rw [low_cov_loop]
  rw [if_neg h]

/-- Joint characterization of the open (`some`) and closed (`none`) states
of the low-coverage scan loop: the closed state emits exactly the maximal
runs of the remaining suffix shifted to absolute positions, and the open
state first closes its run at the suffix's first adequate position (or at
the end), then continues closed. -/
theorem low_cov_loop_mem (mc : ℕ) : ∀ (l : List ℕ),
    (∀ (i : ℕ) (acc : List Interval) (x : Interval),
      x ∈ low_cov_loop mc l i none acc ↔
        x ∈ acc ∨ ∃ s e : ℕ, isMaxRun mc l s e ∧
          x = ⟨(i : ℤ) + s, (i : ℤ) + e⟩) ∧
    (∀ (i s0 : ℕ) (acc : List Interval) (x : Interval),
      x ∈ low_cov_loop mc l i (some s0) acc ↔
        x ∈ acc ∨ x = ⟨(s0 : ℤ), (i : ℤ) + (first_good_index mc l) - 1⟩ ∨
        ∃ s e : ℕ, isMaxRun mc (l.drop (first_good_index mc l + 1)) s e ∧
          x = ⟨(i : ℤ) + first_good_index mc l + 1 + s,
               (i : ℤ) + first_good_index mc l + 1 + e⟩) := by
  intro l
  induction l with
  | nil =>
    constructor
    · intro i acc x
      unfold low_cov_loop
      simp only [iff_self_or]
      rintro ⟨s, e, hrun, _⟩
      exact absurd hrun (isMaxRun_nil mc s e)
    · intro i s0 acc x
      unfold low_cov_loop
      have hfg : first_good_index mc ([] : List ℕ) = 0 := rfl
      rw [hfg]
      simp only [List.mem_append, List.mem_singleton, List.drop_nil]
      constructor
      · rintro (hx | hx)
        · exact Or.inl hx
        · refine Or.inr (Or.inl ?_)
          rw [hx]
          simp
      · rintro (hx | hx | ⟨s, e, hrun, _⟩)
        · exact Or.inl hx
        · refine Or.inr ?_
          rw [hx]
          simp
        · exact absurd hrun (isMaxRun_nil mc s e)
  | cons d rest ih =>
    obtain ⟨ihA, ihB⟩ := ih
    by_cases hd : d < mc
    · constructor
      · intro i acc x
        rw [loop_cons_bad_none rest i acc hd, ihB (i + 1) i acc x]
        constructor
        · rintro (hx | hx | ⟨s, e, hrun, hx⟩)
          · exact Or.inl hx
          · refine Or.inr ⟨0, first_good_index mc rest, ?_, ?_⟩
            · rw [isMaxRun_cons_bad hd (first_good_index mc rest) rfl]
              exact Or.inl ⟨rfl, rfl⟩
            · rw [hx, Interval.mk.injEq]
              constructor
              · push_cast
                omega
              · push_cast
                omega
          · refine Or.inr ⟨first_good_index mc rest + 2 + s,
              first_good_index mc rest + 2 + e, ?_, ?_⟩
            · rw [isMaxRun_cons_bad hd (first_good_index mc rest) rfl]
              exact Or.inr ⟨s, e, hrun, rfl, rfl⟩
            · rw [hx]
              have h1 : (i : ℤ) + ((first_good_index mc rest : ℕ) + 2 + s : ℕ) =
                  ((i : ℤ) + 1) + (first_good_index mc rest) + 1 + s := by push_cast; omega
              have h2 : (i : ℤ) + ((first_good_index mc rest : ℕ) + 2 + e : ℕ) =
                  ((i : ℤ) + 1) + (first_good_index mc rest) + 1 + e := by push_cast; omega
              rw [Interval.mk.injEq]
              constructor
              · push_cast
                omega
              · push_cast
                omega
        · rintro (hx | ⟨s, e, hrun, hx⟩)
          · exact Or.inl hx
          · rw [isMaxRun_cons_bad hd (first_good_index mc rest) rfl] at hrun
            rcases hrun with ⟨hs0, hek⟩ | ⟨s', e', hrun', hs, he⟩
            · refine Or.inr (Or.inl ?_)
              rw [hx, hs0, hek, Interval.mk.injEq]
              constructor
              · push_cast
                omega
              · push_cast
                omega
            · refine Or.inr (Or.inr ⟨s', e', hrun', ?_⟩)
              rw [hx, hs, he, Interval.mk.injEq]
              constructor
              · push_cast
                omega
              · push_cast
                omega
      · intro i s0 acc x
        rw [loop_cons_bad_some rest i s0 acc hd, ihB (i + 1) s0 acc x,
          fg_cons_bad mc d rest hd]
        have hdrop : (d :: rest).drop (first_good_index mc rest + 1 + 1) =
            rest.drop (first_good_index mc rest + 1) := by
          simp [List.drop_succ_cons]
        rw [hdrop]
        constructor
        · rintro (hx | hx | ⟨s, e, hrun, hx⟩)
          · exact Or.inl hx
          · refine Or.inr (Or.inl ?_)
            rw [hx, Interval.mk.injEq]
            constructor
            · rfl
            · push_cast
              omega
          · refine Or.inr (Or.inr ⟨s, e, hrun, ?_⟩)
            rw [hx, Interval.mk.injEq]
            constructor
            · push_cast
              omega
            · push_cast
              omega
        · rintro (hx | hx | ⟨s, e, hrun, hx⟩)
          · exact Or.inl hx
          · refine Or.inr (Or.inl ?_)
            rw [hx, Interval.mk.injEq]
            constructor
            · rfl
            · push_cast
              omega
          · refine Or.inr (Or.inr ⟨s, e, hrun, ?_⟩)
            rw [hx, Interval.mk.injEq]
            constructor
            · push_cast
              omega
            · push_cast
              omega
    · constructor
      · intro i acc x
        rw [loop_cons_good_none rest i acc hd, ihA (i + 1) acc x]
        have hd' : mc ≤ d := by omega
        constructor
        · rintro (hx | ⟨s, e, hrun, hx⟩)
          · exact Or.inl hx
          · refine Or.inr ⟨s + 1, e + 1, ?_, ?_⟩
            · rw [isMaxRun_cons_good hd' (s + 1) (e + 1)]
              simpa using hrun
            · rw [hx, Interval.mk.injEq]
              constructor
              · push_cast
                omega
              · push_cast
                omega
        · rintro (hx | ⟨s, e, hrun, hx⟩)
          · exact Or.inl hx
          · rw [isMaxRun_cons_good hd' s e] at hrun
            obtain ⟨hs1, he1, hrun'⟩ := hrun
            refine Or.inr ⟨s - 1, e - 1, hrun', ?_⟩
            rw [hx, Interval.mk.injEq]
            constructor
            · push_cast
              omega
            · push_cast
              omega
      · intro i s0 acc x
        rw [loop_cons_good_some rest i s0 acc hd, ihA (i + 1) _ x]
        have hd' : mc ≤ d := by omega
        rw [fg_cons_good mc d rest hd']
        have hdrop : (d :: rest).drop (0 + 1) = rest := by simp
        rw [hdrop]
        simp only [List.mem_append, List.mem_singleton]
        constructor
        · rintro ((hx | hx) | ⟨s, e, hrun, hx⟩)
          · exact Or.inl hx
          · refine Or.inr (Or.inl ?_)
            rw [hx, Interval.mk.injEq]
            constructor
            · rfl
            · push_cast
              omega
          · refine Or.inr (Or.inr ⟨s, e, hrun, ?_⟩)
            rw [hx, Interval.mk.injEq]
            constructor
            · push_cast
              omega
            · push_cast
              omega
        · rintro (hx | hx | ⟨s, e, hrun, hx⟩)
          · exact Or.inl (Or.inl hx)
          · refine Or.inl (Or.inr ?_)
            rw [hx, Interval.mk.injEq]
            constructor
            · rfl
            · push_cast
              omega
          · refine Or.inr ⟨s, e, hrun, ?_⟩
            rw [hx, Interval.mk.injEq]
            constructor
            · push_cast
              omega
            · push_cast
              omega

/-- The scan loop emits intervals in strictly increasing position order. -/
theorem low_cov_loop_chain (mc : ℕ) : ∀ (l : List ℕ) (i : ℕ) (st : Option ℕ)
      (acc : List Interval),
    acc.Pairwise (fun a b => a.«end» < b.start) →
    (st = none → ∀ a ∈ acc, a.«end» < (i : ℤ)) →
    (∀ s0, st = some s0 → (∀ a ∈ acc, a.«end» < (s0 : ℤ)) ∧ s0 ≤ i) →
    (low_cov_loop mc l i st acc).Pairwise (fun a b => a.«end» < b.start)
  | [], i, none, acc, hacc, _, _ => by
    unfold low_cov_loop
    exact hacc
  | [], i, some s0, acc, hacc, _, hsome => by
    unfold low_cov_loop
    rw [List.pairwise_append]
    refine ⟨hacc, by simp, ?_⟩
    intro a ha b hb
    simp only [List.mem_singleton] at hb
    subst hb
    exact (hsome s0 rfl).1 a ha
  | d :: rest, i, none, acc, hacc, hnone, hsome => by
    by_cases hd : d < mc
    · rw [loop_cons_bad_none rest i acc hd]
      refine low_cov_loop_chain mc rest (i + 1) (some i) acc hacc (by simp) ?_
      intro s0 hs0
      injection hs0 with hs0
      subst hs0
      exact ⟨hnone rfl, by omega⟩
    · rw [loop_cons_good_none rest i acc hd]
      refine low_cov_loop_chain mc rest (i + 1) none acc hacc ?_ (by simp)
      intro _ a ha
      have := hnone rfl a ha
      push_cast
      omega
  | d :: rest, i, some s0, acc, hacc, hnone, hsome => by
    obtain ⟨hbnd, hs0i⟩ := hsome s0 rfl
    by_cases hd : d < mc
    · rw [loop_cons_bad_some rest i s0 acc hd]
      refine low_cov_loop_chain mc rest (i + 1) (some s0) acc hacc (by simp) ?_
      intro s1 hs1
      injection hs1 with hs1
      subst hs1
      exact ⟨hbnd, by omega⟩
    · rw [loop_cons_good_some rest i s0 acc hd]
      refine low_cov_loop_chain mc rest (i + 1) none (acc ++ [⟨(s0 : ℤ), (i : ℤ) - 1⟩]) ?_ ?_
        (by simp)
      · rw [List.pairwise_append]
        refine ⟨hacc, by simp, ?_⟩
        intro a ha b hb
        simp only [List.mem_singleton] at hb
        subst hb
        exact hbnd a ha
      · intro _ a ha
        rcases List.mem_append.mp ha with ha | ha
        · have h1 := hbnd a ha
          push_cast
          omega
        · simp only [List.mem_singleton] at ha
          subst ha
          push_cast
          omega

/-- C4: for every depth array and threshold, the low-coverage scan returns
exactly one interval per maximal run of consecutive positions strictly
below the threshold (membership in the output is equivalent to being a
maximal run, every output interval is such a run, and the output is
strictly ordered, so no run appears twice); in particular, on the depth
array `[10,10,2,2,2,10,0,10]` with threshold 5 it returns `(2,4)` and
`(6,6)`. -/
theorem claim_C4 (mc : ℕ) (l : List ℕ) :
    (∀ s e : ℕ, (⟨(s : ℤ), (e : ℤ)⟩ : Interval) ∈ coverage_list_to_low_cov_intervals mc l ↔
      isMaxRun mc l s e) ∧
    (∀ x ∈ coverage_list_to_low_cov_intervals mc l,
      ∃ s e : ℕ, x = ⟨(s : ℤ), (e : ℤ)⟩ ∧ isMaxRun mc l s e) ∧
    (coverage_list_to_low_cov_intervals mc l).Pairwise (fun a b => a.«end» < b.start) ∧
    coverage_list_to_low_cov_intervals 5 [10, 10, 2, 2, 2, 10, 0, 10] =
      [⟨2, 4⟩, ⟨6, 6⟩] := by
  have hmem := (low_cov_loop_mem mc l).1 0 []
  refine ⟨?_, ?_, ?_, by decide⟩
  · intro s e
    rw [coverage_list_to_low_cov_intervals, hmem]
    simp only [List.not_mem_nil, false_or]
    constructor
    · rintro ⟨s', e', hrun, hx⟩
      rw [Interval.mk.injEq] at hx
      obtain ⟨hx1, hx2⟩ := hx
      have hs : s = s' := by push_cast at hx1; omega
      have he : e = e' := by push_cast at hx2; omega
      rw [hs, he]
      exact hrun
    · intro hrun
      exact ⟨s, e, hrun, by rw [Interval.mk.injEq]; constructor <;> push_cast <;> omega⟩
  · intro x hx
    rw [coverage_list_to_low_cov_intervals, hmem] at hx
    simp only [List.not_mem_nil, false_or] at hx
    obtain ⟨s, e, hrun, hx⟩ := hx
    exact ⟨s, e, by rw [hx, Interval.mk.injEq]; constructor <;> push_cast <;> omega, hrun⟩
  · exact low_cov_loop_chain mc l 0 none [] (by simp) (by simp) (by simp)

/-! ## Interval complement and intersection semantics: claim C6 -/

theorem except_bind_ok {α β : Type} (a : α) (f : α → Except String β) :
    (Except.ok a >>= f) = f a := rfl

/-- Coverage semantics of the reference complement `gaps_from`. -/
theorem gaps_from_covers : ∀ (X : List Interval) (lo L : ℤ),
    (∀ a ∈ X, lo ≤ a.start ∧ a.start ≤ a.«end» ∧ a.«end» ≤ L - 1) →
    X.Pairwise (fun a b => a.«end» + 2 ≤ b.start) →
    ∀ p : ℤ, coversPos (gaps_from lo X L) p ↔
      (lo ≤ p ∧ p ≤ L - 1 ∧ ¬ coversPos X p)
  | [], lo, L, _, _, p => by
    unfold gaps_from coversPos
    by_cases h : lo ≤ L - 1
    · rw [if_pos h]
      simp [Interval.containsPos]
    · rw [if_neg h]
      simp
      intro h1
      omega
  | c :: rest, lo, L, hval, hchain, p => by
    obtain ⟨hclo, hcval, hchi⟩ := hval c (List.mem_cons_self c rest)
    have hcb : ∀ b ∈ rest, c.«end» + 2 ≤ b.start :=
      (List.pairwise_cons.mp hchain).1
    have ih := gaps_from_covers rest (c.«end» + 1) L
      (fun b hb => ⟨by have := hcb b hb; omega, (hval b (List.mem_cons_of_mem c hb)).2.1,
        (hval b (List.mem_cons_of_mem c hb)).2.2⟩)
      ((List.pairwise_cons.mp hchain).2) p
    unfold gaps_from
    have hsplit : coversPos ((if lo ≤ c.start - 1 then [⟨lo, c.start - 1⟩] else []) ++
        gaps_from (c.«end» + 1) rest L) p ↔
        ((lo ≤ c.start - 1 ∧ lo ≤ p ∧ p ≤ c.start - 1) ∨
          coversPos (gaps_from (c.«end» + 1) rest L) p) := by
      unfold coversPos
      by_cases h : lo ≤ c.start - 1
      · rw [if_pos h]
        simp [Interval.containsPos, h]
      · rw [if_neg h]
        simp [h]
    rw [hsplit, ih]
    unfold coversPos
    constructor
    · rintro (⟨h1, h2, h3⟩ | ⟨h1, h2, h3⟩)
      · refine ⟨h2, by omega, ?_⟩
        rintro ⟨b, hb, hbc⟩
        unfold Interval.containsPos at hbc
        rcases List.mem_cons.mp hb with hb' | hb'
        · subst hb'
          omega
        · have := hcb b hb'
          omega
      · refine ⟨by omega, h2, ?_⟩
        rintro ⟨b, hb, hbc⟩
        rcases List.mem_cons.mp hb with hb' | hb'
        · subst hb'
          unfold Interval.containsPos at hbc
          omega
        · exact h3 ⟨b, hb', hbc⟩
    · rintro ⟨h1, h2, h3⟩
      by_cases hp : p ≤ c.start - 1
      · left
        refine ⟨by omega, h1, hp⟩
      · right
        refine ⟨?_, h2, ?_⟩
        · by_contra hc
          push_neg at hc
          exact h3 ⟨c, List.mem_cons_self c rest, by unfold Interval.containsPos; omega⟩
        · intro hcov
          obtain ⟨b, hb, hbc⟩ := hcov
          exact h3 ⟨b, List.mem_cons_of_mem c hb, hbc⟩

/-- A position is covered by an interval-list intersection exactly when
both lists cover it. -/
theorem intersection_covers (A B : List Interval) (p : ℤ) :
    coversPos (intersection A B) p ↔ coversPos A p ∧ coversPos B p := by
  unfold intersection coversPos
  constructor
  · rintro ⟨x, hx, hxc⟩
    rw [List.mem_flatMap] at hx
    obtain ⟨a, ha, hx⟩ := hx
    rw [List.mem_filterMap] at hx
    obtain ⟨b, hb, hab⟩ := hx
    by_cases hint : a.intersects b = true
    · rw [if_pos hint] at hab
      injection hab with hab
      subst hab
      unfold Interval.containsPos at hxc ⊢
      simp only at hxc
      obtain ⟨h1, h2⟩ := hxc
      rw [max_le_iff] at h1
      rw [le_min_iff] at h2
      exact ⟨⟨a, ha, h1.1, h2.1⟩, ⟨b, hb, h1.2, h2.2⟩⟩
    · rw [if_neg hint] at hab
      cases hab
  · rintro ⟨⟨a, ha, hac⟩, ⟨b, hb, hbc⟩⟩
    unfold Interval.containsPos at hac hbc
    refine ⟨⟨max a.start b.start, min a.«end» b.«end»⟩, ?_, ?_⟩
    · rw [List.mem_flatMap]
      refine ⟨a, ha, ?_⟩
      rw [List.mem_filterMap]
      refine ⟨b, hb, ?_⟩
      rw [if_pos ?_]
      · unfold Interval.intersects
        rw [decide_eq_true_eq]
        omega
    · unfold Interval.containsPos
      constructor
      · rw [max_le_iff]
        omega
      · rw [le_min_iff]
        omega

/-- The inner gaps of a separated chain, together with the closing tail
gap, form the reference complement of the tail of the chain. -/
theorem innerGaps_chain : ∀ (rest : List Interval) (c0 : Interval) (L : ℤ),
    (c0 :: rest).Pairwise (fun a b => a.«end» + 2 ≤ b.start) →
    ∃ inner, innerGaps (c0 :: rest) = Except.ok inner ∧
      inner ++ (if ((c0 :: rest).getLast (List.cons_ne_nil c0 rest)).«end» < L - 1
        then [⟨((c0 :: rest).getLast (List.cons_ne_nil c0 rest)).«end» + 1, L - 1⟩]
        else []) =
      gaps_from (c0.«end» + 1) rest L
  | [], c0, L, _ => by
    refine ⟨[], rfl, ?_⟩
    unfold gaps_from
    simp only [List.getLast_singleton, List.nil_append]
    by_cases h : c0.«end» < L - 1
    · rw [if_pos h, if_pos (by omega)]
    · rw [if_neg h, if_neg (by omega)]
  | c1 :: rest', c0, L, hchain => by
    have hgap : c0.«end» + 2 ≤ c1.start :=
      (List.pairwise_cons.mp hchain).1 c1 (List.mem_cons_self c1 rest')
    obtain ⟨inner', hinner', htail'⟩ :=
      innerGaps_chain rest' c1 L (List.pairwise_cons.mp hchain).2
    refine ⟨⟨c0.«end» + 1, c1.start - 1⟩ :: inner', ?_, ?_⟩
    · unfold innerGaps
      unfold mkInterval
      rw [if_pos (by omega), hinner']
      rfl
    · have hlast : (c0 :: c1 :: rest').getLast (List.cons_ne_nil c0 (c1 :: rest')) =
          (c1 :: rest').getLast (List.cons_ne_nil c1 rest') :=
        List.getLast_cons _
      rw [hlast, List.cons_append, htail']
      conv_rhs => rw [gaps_from]
      rw [if_pos (by omega)]
      rfl

theorem mkInterval_ok (a b : ℤ) (h : a ≤ b) : mkInterval a b = Except.ok ⟨a, b⟩ := by
  unfold mkInterval
  rw [if_pos h]

/-- On a valid separated chain within `[0, L-1]`, `Qc._invert_list`
succeeds and returns the reference complement. -/
theorem invert_list_eq_gaps (X : List Interval) (L : ℤ) (hL : 1 ≤ L)
    (hval : ∀ a ∈ X, 0 ≤ a.start ∧ a.start ≤ a.«end» ∧ a.«end» ≤ L - 1)
    (hchain : X.Pairwise (fun a b => a.«end» + 2 ≤ b.start)) :
    invert_list X L = Except.ok (gaps_from 0 X L) := by
  rcases X with _ | ⟨c0, rest⟩
  · simp only [invert_list]
    rw [mkInterval_ok 0 (L - 1) (by omega)]
    unfold gaps_from
    rw [if_pos (by omega : (0 : ℤ) ≤ L - 1)]
    rfl
  · obtain ⟨hc0lo, hc0val, hc0hi⟩ := hval c0 (List.mem_cons_self c0 rest)
    obtain ⟨inner, hinner, htail⟩ := innerGaps_chain rest c0 L hchain
    have hlhi : ((c0 :: rest).getLast (List.cons_ne_nil c0 rest)).«end» ≤ L - 1 :=
      (hval _ (List.getLast_mem _)).2.2
    have hgoal : gaps_from 0 (c0 :: rest) L =
        (if (0 : ℤ) ≤ c0.start - 1 then [⟨0, c0.start - 1⟩] else []) ++
        (inner ++ (if ((c0 :: rest).getLast (List.cons_ne_nil c0 rest)).«end» < L - 1
          then [⟨((c0 :: rest).getLast (List.cons_ne_nil c0 rest)).«end» + 1, L - 1⟩]
          else [])) := by
      conv_lhs => rw [gaps_from]
      rw [htail]
    rw [hgoal]
    simp only [invert_list]
    rw [hinner]
    by_cases h0 : c0.start = 0 <;>
      by_cases hl : ((c0 :: rest).getLast (List.cons_ne_nil c0 rest)).«end» < L - 1
    · rw [mkInterval_ok (((c0 :: rest).getLast (List.cons_ne_nil c0 rest)).«end» + 1) (L - 1)
        (by omega)]
      simp [h0, hl, except_bind_ok]
    · simp [h0, hl, except_bind_ok]
    · have h0' : (0 : ℤ) ≤ c0.start - 1 := by omega
      rw [mkInterval_ok 0 (c0.start - 1) (by omega),
        mkInterval_ok (((c0 :: rest).getLast (List.cons_ne_nil c0 rest)).«end» + 1) (L - 1)
          (by omega)]
      simp [h0, h0', hl, except_bind_ok]
    · have h0' : (0 : ℤ) ≤ c0.start - 1 := by omega
      rw [mkInterval_ok 0 (c0.start - 1) (by omega)]
      simp [h0, h0', hl, except_bind_ok]

/-- Every below-threshold position lies inside some maximal run. -/
theorem run_exists (mc : ℕ) : (l : List ℕ) → (p : ℕ) → p < l.length → l.getD p 0 < mc →
    ∃ s e, isMaxRun mc l s e ∧ s ≤ p ∧ p ≤ e
  | [], p, hp, _ => by simp at hp
  | d :: rest, p, hp, hbad => by
    by_cases hd : d < mc
    · by_cases hpk : p ≤ first_good_index mc rest
      · exact ⟨0, first_good_index mc rest,
          (isMaxRun_cons_bad hd _ rfl 0 _).mpr (Or.inl ⟨rfl, rfl⟩), by omega, hpk⟩
      · have hplen : p < rest.length + 1 := by simpa using hp
        have hklen : first_good_index mc rest < rest.length := by omega
        have hgoodk1 : mc ≤ (d :: rest).getD (first_good_index mc rest + 1) 0 := by
          rw [List.getD_cons_succ]
          exact fg_good_at mc rest hklen
        have hpk2 : first_good_index mc rest + 2 ≤ p := by
          by_contra hc
          have hpe : p = first_good_index mc rest + 1 := by omega
          rw [hpe] at hbad
          omega
        obtain ⟨s, e, hrun, hs, he⟩ := run_exists mc
          (rest.drop (first_good_index mc rest + 1))
          (p - (first_good_index mc rest + 2))
          (by rw [List.length_drop]; omega)
          (by rw [getD_drop]
              have heq2 : first_good_index mc rest + 1 +
                  (p - (first_good_index mc rest + 2)) = p - 1 := by omega
              rw [heq2]
              have heq : p = (p - 1) + 1 := by omega
              rw [heq, List.getD_cons_succ] at hbad
              exact hbad)
        exact ⟨first_good_index mc rest + 2 + s, first_good_index mc rest + 2 + e,
          (isMaxRun_cons_bad hd _ rfl _ _).mpr (Or.inr ⟨s, e, hrun, rfl, rfl⟩),
          by omega, by omega⟩
    · have hp1 : 1 ≤ p := by
        rcases Nat.eq_zero_or_pos p with h | h
        · rw [h] at hbad
          simp at hbad
          omega
        · exact h
      obtain ⟨s, e, hrun, hs, he⟩ := run_exists mc rest (p - 1)
        (by simp at hp; omega)
        (by have heq : p = (p - 1) + 1 := by omega
            rw [heq, List.getD_cons_succ] at hbad
            exact hbad)
      exact ⟨s + 1, e + 1,
        (isMaxRun_cons_good (by omega) (s + 1) (e + 1)).mpr
          ⟨by omega, by omega, by simpa using hrun⟩, by omega, by omega⟩
termination_by l _ _ _ => l.length
decreasing_by
  · simp [List.length_drop]
    omega
  · simp

/-- Scan coverage semantics: a position is inside some reported
low-coverage interval exactly when its depth is below the threshold. -/
theorem scan_covers (mc : ℕ) (l : List ℕ) (p : ℕ) (hp : p < l.length) :
    coversPos (coverage_list_to_low_cov_intervals mc l) (p : ℤ) ↔ l.getD p 0 < mc := by
  have hmem := (low_cov_loop_mem mc l).1 0 []
  constructor
  · rintro ⟨x, hx, hxc⟩
    rw [coverage_list_to_low_cov_intervals] at hx
    rw [hmem x] at hx
    simp only [List.not_mem_nil, false_or] at hx
    obtain ⟨s, e, hrun, hxe⟩ := hx
    subst hxe
    unfold Interval.containsPos at hxc
    simp only at hxc
    have hs : s ≤ p := by push_cast at hxc; omega
    have he : p ≤ e := by push_cast at hxc; omega
    exact hrun.2.2.1 p hs he
  · intro hbad
    obtain ⟨s, e, hrun, hs, he⟩ := run_exists mc l p hp hbad
    refine ⟨⟨(s : ℤ), (e : ℤ)⟩, ?_, ?_⟩
    · rw [coverage_list_to_low_cov_intervals, hmem]
      right
      exact ⟨s, e, hrun, by rw [Interval.mk.injEq]; constructor <;> push_cast <;> omega⟩
    · unfold Interval.containsPos
      constructor <;> push_cast <;> omega

/-- The scan output is a valid separated chain within the array bounds. -/
theorem scan_chain (mc : ℕ) (l : List ℕ) :
    (∀ a ∈ coverage_list_to_low_cov_intervals mc l,
      0 ≤ a.start ∧ a.start ≤ a.«end» ∧ a.«end» ≤ (l.length : ℤ) - 1) ∧
    (coverage_list_to_low_cov_intervals mc l).Pairwise
      (fun a b => a.«end» + 2 ≤ b.start) := by
  have hmem := (low_cov_loop_mem mc l).1 0 []
  have hrun : ∀ a ∈ coverage_list_to_low_cov_intervals mc l,
      ∃ s e : ℕ, isMaxRun mc l s e ∧ a = ⟨(s : ℤ), (e : ℤ)⟩ := by
    intro a ha
    rw [coverage_list_to_low_cov_intervals, hmem] at ha
    simp only [List.not_mem_nil, false_or] at ha
    obtain ⟨s, e, hr, hae⟩ := ha
    exact ⟨s, e, hr, by rw [hae, Interval.mk.injEq]; constructor <;> push_cast <;> omega⟩
  constructor
  · intro a ha
    obtain ⟨s, e, hr, hae⟩ := hrun a ha
    subst hae
    obtain ⟨h1, h2, _⟩ := hr
    simp only
    constructor
    · positivity
    constructor
    · exact_mod_cast h1
    · have : (e : ℤ) < (l.length : ℤ) := by exact_mod_cast h2
      omega
  · have hchain := low_cov_loop_chain mc l 0 none [] (by simp) (by simp) (by simp)
    rw [coverage_list_to_low_cov_intervals]
    refine List.Pairwise.imp_of_mem ?_ hchain
    intro a b ha hb hlt
    obtain ⟨sa, ea, hra, hae⟩ := hrun a (by rw [coverage_list_to_low_cov_intervals]; exact ha)
    obtain ⟨sb, eb, hrb, hbe⟩ := hrun b (by rw [coverage_list_to_low_cov_intervals]; exact hb)
    subst hae
    subst hbe
    simp only at hlt ⊢
    have hlt' : ea < sb := by exact_mod_cast hlt
    have hsep : ea + 2 ≤ sb := by
      by_contra hc
      have hsbe : sb = ea + 1 := by omega
      have hbad := hrb.2.2.1 sb (le_refl sb) hrb.1
      rcases hra.2.2.2.2 with h5 | h5
      · have : sb < l.length := lt_of_le_of_lt hrb.1 hrb.2.1
        omega
      · rw [← hsbe] at h5
        omega
    omega

/-- C6: for every reference sequence, the region-coverage stage succeeds,
its final ok-coverage region is by construction the interval intersection
of the complement of the forward-strand low-coverage intervals with the
complement of the reverse-strand low-coverage intervals over the full
sequence length, and a position is in it exactly when its depth meets the
threshold on both strands independently. -/
theorem claim_C6 (mc : ℕ) (cov_fwd cov_rev : List ℕ) (L : ℤ) (hL : 1 ≤ L)
    (hf : (cov_fwd.length : ℤ) = L) (hr : (cov_rev.length : ℤ) = L) :
    ∃ fwd_ok rev_ok : List Interval,
      invert_list (coverage_list_to_low_cov_intervals mc cov_fwd) L = Except.ok fwd_ok ∧
      invert_list (coverage_list_to_low_cov_intervals mc cov_rev) L = Except.ok rev_ok ∧
      calculate_ref_read_region_coverage mc cov_fwd cov_rev L = Except.ok
        { low_cov_fwd := coverage_list_to_low_cov_intervals mc cov_fwd
          low_cov_rev := coverage_list_to_low_cov_intervals mc cov_rev
          ok_cov := intersection fwd_ok rev_ok
          low_cov := intersection (coverage_list_to_low_cov_intervals mc cov_fwd)
            (coverage_list_to_low_cov_intervals mc cov_rev) } ∧
      (∀ p : ℕ, p < cov_fwd.length →
        (coversPos (intersection fwd_ok rev_ok) (p : ℤ) ↔
          (mc ≤ cov_fwd.getD p 0 ∧ mc ≤ cov_rev.getD p 0))) := by
  obtain ⟨hfval, hfchain⟩ := scan_chain mc cov_fwd
  obtain ⟨hrval, hrchain⟩ := scan_chain mc cov_rev
  have hfval' : ∀ a ∈ coverage_list_to_low_cov_intervals mc cov_fwd,
      0 ≤ a.start ∧ a.start ≤ a.«end» ∧ a.«end» ≤ L - 1 := by
    intro a ha
    have := hfval a ha
    omega
  have hrval' : ∀ a ∈ coverage_list_to_low_cov_intervals mc cov_rev,
      0 ≤ a.start ∧ a.start ≤ a.«end» ∧ a.«end» ≤ L - 1 := by
    intro a ha
    have := hrval a ha
    omega
  have hinvf := invert_list_eq_gaps _ L hL hfval' hfchain
  have hinvr := invert_list_eq_gaps _ L hL hrval' hrchain
  refine ⟨gaps_from 0 (coverage_list_to_low_cov_intervals mc cov_fwd) L,
    gaps_from 0 (coverage_list_to_low_cov_intervals mc cov_rev) L,
    hinvf, hinvr, ?_, ?_⟩
  · simp only [calculate_ref_read_region_coverage]
    rw [hinvf, hinvr]
    simp only [except_bind_ok]
  · intro p hp
    have hpL : (p : ℤ) ≤ L - 1 := by
      rw [← hf]
      omega
    rw [intersection_covers,
      gaps_from_covers _ 0 L hfval' hfchain (p : ℤ),
      gaps_from_covers _ 0 L hrval' hrchain (p : ℤ),
      scan_covers mc cov_fwd p hp,
      scan_covers mc cov_rev p (by omega)]
    constructor
    · rintro ⟨⟨_, _, h1⟩, ⟨_, _, h2⟩⟩
      exact ⟨by omega, by omega⟩
    · rintro ⟨h1, h2⟩
      exact ⟨⟨by positivity, hpL, by omega⟩, ⟨by positivity, hpL, by omega⟩⟩


/-- Witness for C6 on the spec's depth array used for both strands. -/
theorem claim_C6_witness :
    ((1 : ℤ) ≤ 8 ∧ (([10, 10, 2, 2, 2, 10, 0, 10] : List ℕ).length : ℤ) = 8) ∧
    (∃ fwd_ok rev_ok : List Interval,
      invert_list (coverage_list_to_low_cov_intervals 5 [10, 10, 2, 2, 2, 10, 0, 10]) 8 =
        Except.ok fwd_ok ∧
      invert_list (coverage_list_to_low_cov_intervals 5 [10, 10, 2, 2, 2, 10, 0, 10]) 8 =
        Except.ok rev_ok ∧
      calculate_ref_read_region_coverage 5 [10, 10, 2, 2, 2, 10, 0, 10]
          [10, 10, 2, 2, 2, 10, 0, 10] 8 = Except.ok
        { low_cov_fwd := coverage_list_to_low_cov_intervals 5 [10, 10, 2, 2, 2, 10, 0, 10]
          low_cov_rev := coverage_list_to_low_cov_intervals 5 [10, 10, 2, 2, 2, 10, 0, 10]
          ok_cov := intersection fwd_ok rev_ok
          low_cov := intersection
            (coverage_list_to_low_cov_intervals 5 [10, 10, 2, 2, 2, 10, 0, 10])
            (coverage_list_to_low_cov_intervals 5 [10, 10, 2, 2, 2, 10, 0, 10]) } ∧
      (∀ p : ℕ, p < ([10, 10, 2, 2, 2, 10, 0, 10] : List ℕ).length →
        (coversPos (intersection fwd_ok rev_ok) (p : ℤ) ↔
          (5 ≤ ([10, 10, 2, 2, 2, 10, 0, 10] : List ℕ).getD p 0 ∧
           5 ≤ ([10, 10, 2, 2, 2, 10, 0, 10] : List ℕ).getD p 0)))) :=
  ⟨⟨by decide, by decide⟩,
   claim_C6 5 [10, 10, 2, 2, 2, 10, 0, 10] [10, 10, 2, 2, 2, 10, 0, 10] 8
     (by decide) (by decide) (by decide)⟩

/-! ## Double complement: claim C9 -/

/-- The reference complement of a valid separated chain is itself a valid
separated chain. -/
theorem gaps_from_chain : ∀ (X : List Interval) (lo L : ℤ),
    (∀ a ∈ X, lo ≤ a.start ∧ a.start ≤ a.«end» ∧ a.«end» ≤ L - 1) →
    X.Pairwise (fun a b => a.«end» + 2 ≤ b.start) →
    (∀ g ∈ gaps_from lo X L, lo ≤ g.start ∧ g.start ≤ g.«end» ∧ g.«end» ≤ L - 1) ∧
    (gaps_from lo X L).Pairwise (fun a b => a.«end» + 2 ≤ b.start)
  | [], lo, L, _, _ => by
    unfold gaps_from
    by_cases h : lo ≤ L - 1
    · rw [if_pos h]
      constructor
      · intro g hg
        simp only [List.mem_singleton] at hg
        subst hg
        exact ⟨le_refl _, h, le_refl _⟩
      · simp
    · rw [if_neg h]
      simp
  | c :: rest, lo, L, hval, hchain => by
    obtain ⟨hclo, hcval, hchi⟩ := hval c (List.mem_cons_self c rest)
    have hcb : ∀ b ∈ rest, c.«end» + 2 ≤ b.start := (List.pairwise_cons.mp hchain).1
    obtain ⟨ihb, ihc⟩ := gaps_from_chain rest (c.«end» + 1) L
      (fun b hb => ⟨by have := hcb b hb; omega, (hval b (List.mem_cons_of_mem c hb)).2.1,
        (hval b (List.mem_cons_of_mem c hb)).2.2⟩)
      (List.pairwise_cons.mp hchain).2
    unfold gaps_from
    constructor
    · intro g hg
      rcases List.mem_append.mp hg with hg | hg
      · by_cases h : lo ≤ c.start - 1
        · rw [if_pos h] at hg
          simp only [List.mem_singleton] at hg
          subst hg
          refine ⟨le_refl _, h, ?_⟩
          show c.start - 1 ≤ L - 1
          omega
        · rw [if_neg h] at hg
          simp at hg
      · have := ihb g hg
        exact ⟨by omega, this.2.1, this.2.2⟩
    · rw [List.pairwise_append]
      refine ⟨?_, ihc, ?_⟩
      · by_cases h : lo ≤ c.start - 1
        · rw [if_pos h]
          simp
        · rw [if_neg h]
          simp
      · intro g hg g' hg'
        by_cases h : lo ≤ c.start - 1
        · rw [if_pos h] at hg
          simp only [List.mem_singleton] at hg
          subst hg
          have := (ihb g' hg').1
          simp only
          omega
        · rw [if_neg h] at hg
          simp at hg

/-- The merge fold leaves a separated chain unchanged. -/
theorem mergeFold_sep : ∀ (rest : List Interval) (cur : Interval),
    (cur :: rest).Pairwise (fun a b => a.«end» + 2 ≤ b.start) →
    mergeFold cur rest = cur :: rest
  | [], cur, _ => by unfold mergeFold; rfl
  | b :: r, cur, hchain => by
    unfold mergeFold
    have hgap : cur.«end» + 2 ≤ b.start :=
      (List.pairwise_cons.mp hchain).1 b (List.mem_cons_self b r)
    rw [if_neg (by omega)]
    rw [mergeFold_sep r b (List.pairwise_cons.mp hchain).2]

/-- Merging is the identity on valid separated chains. -/
theorem merge_eq_self_of_chain (X : List Interval)
    (hval : ∀ a ∈ X, a.start ≤ a.«end»)
    (hchain : X.Pairwise (fun a b => a.«end» + 2 ≤ b.start)) :
    merge_overlapping_in_list X = X := by
  have hsorted : X.Sorted Interval.lex_le := by
    refine List.Pairwise.imp_of_mem ?_ hchain
    intro a b ha _ h
    have := hval a ha
    unfold Interval.lex_le
    omega
  unfold merge_overlapping_in_list
  rw [List.Sorted.insertionSort_eq hsorted]
  rcases X with _ | ⟨a, rest⟩
  · rfl
  · exact mergeFold_sep rest a hchain

/-- Two valid separated chains covering the same positions are equal. -/
theorem chain_ext : ∀ (X Y : List Interval),
    (∀ a ∈ X, a.start ≤ a.«end») → X.Pairwise (fun a b => a.«end» + 2 ≤ b.start) →
    (∀ a ∈ Y, a.start ≤ a.«end») → Y.Pairwise (fun a b => a.«end» + 2 ≤ b.start) →
    (∀ p : ℤ, coversPos X p ↔ coversPos Y p) → X = Y
  | [], [], _, _, _, _, _ => rfl
  | [], b :: r2, _, _, hvY, _, hcov => by
    exfalso
    have hb := hvY b (List.mem_cons_self b r2)
    have : coversPos [] b.start := (hcov b.start).mpr
      ⟨b, List.mem_cons_self b r2, le_refl _, hb⟩
    obtain ⟨x, hx, _⟩ := this
    simp at hx
  | a :: r1, [], hvX, _, _, _, hcov => by
    exfalso
    have ha := hvX a (List.mem_cons_self a r1)
    have : coversPos [] a.start := (hcov a.start).mp
      ⟨a, List.mem_cons_self a r1, le_refl _, ha⟩
    obtain ⟨x, hx, _⟩ := this
    simp at hx
  | a :: r1, b :: r2, hvX, hcX, hvY, hcY, hcov => by
    have hav := hvX a (List.mem_cons_self a r1)
    have hbv := hvY b (List.mem_cons_self b r2)
    have har1 : ∀ c ∈ r1, a.«end» + 2 ≤ c.start := (List.pairwise_cons.mp hcX).1
    have hbr2 : ∀ c ∈ r2, b.«end» + 2 ≤ c.start := (List.pairwise_cons.mp hcY).1
    have hstart : a.start = b.start := by
      have h1 : coversPos (b :: r2) a.start := (hcov a.start).mp
        ⟨a, List.mem_cons_self a r1, le_refl _, hav⟩
      have h2 : coversPos (a :: r1) b.start := (hcov b.start).mpr
        ⟨b, List.mem_cons_self b r2, le_refl _, hbv⟩
      obtain ⟨c, hc, hc1, hc2⟩ := h1
      obtain ⟨c', hc', hc1', hc2'⟩ := h2
      rcases List.mem_cons.mp hc with rfl | hc <;>
        rcases List.mem_cons.mp hc' with rfl | hc'
      · omega
      · have := har1 c' hc'
        omega
      · have := hbr2 c hc
        omega
      · have h3 := har1 c' hc'
        have h4 := hbr2 c hc
        have := hvY c (List.mem_cons_of_mem b hc)
        have := hvX c' (List.mem_cons_of_mem a hc')
        omega
    have hend : a.«end» = b.«end» := by
      by_contra hne
      rcases lt_or_gt_of_ne hne with hlt | hlt
      · obtain ⟨c', hc', hc1', hc2'⟩ := (hcov (a.«end» + 1)).mpr
          ⟨b, List.mem_cons_self b r2, by omega, by omega⟩
        rcases List.mem_cons.mp hc' with rfl | hc'
        · omega
        · have := har1 c' hc'
          omega
      · obtain ⟨c', hc', hc1', hc2'⟩ := (hcov (b.«end» + 1)).mp
          ⟨a, List.mem_cons_self a r1, by omega, by omega⟩
        rcases List.mem_cons.mp hc' with rfl | hc'
        · omega
        · have := hbr2 c' hc'
          omega
    have hab : a = b := by
      cases a
      cases b
      simp only at hstart hend
      rw [hstart, hend]
    subst hab
    have htail : r1 = r2 := by
      apply chain_ext r1 r2
        (fun c hc => hvX c (List.mem_cons_of_mem a hc))
        (List.pairwise_cons.mp hcX).2
        (fun c hc => hvY c (List.mem_cons_of_mem a hc))
        (List.pairwise_cons.mp hcY).2
      intro p
      constructor
      · rintro ⟨c, hc, hc1, hc2⟩
        have hgap := har1 c hc
        have : coversPos (a :: r2) p := (hcov p).mp
          ⟨c, List.mem_cons_of_mem a hc, hc1, hc2⟩
        obtain ⟨c', hc', hc1', hc2'⟩ := this
        rcases List.mem_cons.mp hc' with rfl | hc'
        · omega
        · exact ⟨c', hc', hc1', hc2'⟩
      · rintro ⟨c, hc, hc1, hc2⟩
        have hgap := hbr2 c hc
        have : coversPos (a :: r1) p := (hcov p).mpr
          ⟨c, List.mem_cons_of_mem a hc, hc1, hc2⟩
        obtain ⟨c', hc', hc1', hc2'⟩ := this
        rcases List.mem_cons.mp hc' with rfl | hc'
        · omega
        · exact ⟨c', hc', hc1', hc2'⟩
    rw [htail]

/-- Claim C9 as stated is false: on an unsorted interval list the first
inversion raises `Error. start > end` (qc.py:372 constructs an interval
with start > end), so the pipeline does not return `merge(X)`.
Input: X = [(5,9),(0,4)], L = 20. -/
theorem claim_C9_counterexample :
    (do
      let y ← invert_list [⟨5, 9⟩, ⟨0, 4⟩] 20
      invert_list (merge_overlapping_in_list y) 20) ≠
    Except.ok (merge_overlapping_in_list [⟨5, 9⟩, ⟨0, 4⟩]) := by
  intro h
  have hfail : (do
      let y ← invert_list [⟨5, 9⟩, ⟨0, 4⟩] 20
      invert_list (merge_overlapping_in_list y) 20) =
      (Except.error "Error. start > end" : Except String (List Interval)) := rfl
  rw [hfail] at h
  exact Except.noConfusion h

/-- Claim C9 (amended): for a sorted, non-overlapping, non-adjacent
interval list X within `[0, L-1]`, inverting, merging, and inverting
again restores X, which equals `merge(X)`: the double complement
restores the original coverage once normalized. -/
theorem claim_C9 (X : List Interval) (L : ℤ) (hL : 1 ≤ L)
    (hval : ∀ a ∈ X, 0 ≤ a.start ∧ a.start ≤ a.«end» ∧ a.«end» ≤ L - 1)
    (hchain : X.Pairwise (fun a b => a.«end» + 2 ≤ b.start)) :
    (do
      let y ← invert_list X L
      invert_list (merge_overlapping_in_list y) L) =
      Except.ok (merge_overlapping_in_list X) := by
  obtain ⟨hYb, hYc⟩ := gaps_from_chain X 0 L hval hchain
  have hmY : merge_overlapping_in_list (gaps_from 0 X L) = gaps_from 0 X L :=
    merge_eq_self_of_chain _ (fun a ha => (hYb a ha).2.1) hYc
  have hmX : merge_overlapping_in_list X = X :=
    merge_eq_self_of_chain X (fun a ha => (hval a ha).2.1) hchain
  obtain ⟨hZb, hZc⟩ := gaps_from_chain (gaps_from 0 X L) 0 L hYb hYc
  have hZ : gaps_from 0 (gaps_from 0 X L) L = X := by
    apply chain_ext
    · exact fun a ha => (hZb a ha).2.1
    · exact hZc
    · exact fun a ha => (hval a ha).2.1
    · exact hchain
    · intro p
      rw [gaps_from_covers (gaps_from 0 X L) 0 L hYb hYc p,
        gaps_from_covers X 0 L hval hchain p]
      constructor
      · rintro ⟨h1, h2, h3⟩
        by_contra hc
        exact h3 ⟨h1, h2, hc⟩
      · intro hcov
        obtain ⟨a, ha, ha1, ha2⟩ := hcov
        obtain ⟨hb1, hb2, hb3⟩ := hval a ha
        exact ⟨by omega, by omega, fun hg => hg.2.2 ⟨a, ha, ha1, ha2⟩⟩
  rw [invert_list_eq_gaps X L hL hval hchain]
  simp only [except_bind_ok]
  rw [hmY, invert_list_eq_gaps (gaps_from 0 X L) L hL hYb hYc, hZ, hmX]

theorem claim_C9_witness :
    (do
      let y ← invert_list [(⟨2, 4⟩ : Interval)] 10
      invert_list (merge_overlapping_in_list y) 10) =
      Except.ok (merge_overlapping_in_list [(⟨2, 4⟩ : Interval)]) :=
  claim_C9 [⟨2, 4⟩] 10 (by decide) (by decide) (by decide)

/-! ## Empty-assembly behaviour: claim C5 -/

/-- Intersecting with the full-sequence interval leaves an in-bounds list
unchanged. -/
theorem intersection_full (L : ℤ) (B : List Interval)
    (hB : ∀ b ∈ B, 0 ≤ b.start ∧ b.start ≤ b.«end» ∧ b.«end» ≤ L - 1) :
    intersection [⟨0, L - 1⟩] B = B := by
  unfold intersection
  simp only [List.flatMap_cons, List.flatMap_nil, List.append_nil]
  induction B with
  | nil => rfl
  | cons b rest ih =>
    obtain ⟨h1, h2, h3⟩ := hB b (List.mem_cons_self b rest)
    rw [List.filterMap_cons]
    have hint : Interval.intersects ⟨0, L - 1⟩ b = true := by
      unfold Interval.intersects
      rw [decide_eq_true_eq]
      constructor <;> simp <;> omega
    rw [if_pos hint]
    have hmax : max (0 : ℤ) b.start = b.start := max_eq_right h1
    have hmin : min (L - 1) b.«end» = b.«end» := min_eq_right h3
    simp only [hmax, hmin]
    rw [ih (fun c hc => hB c (List.mem_cons_of_mem b hc))]

/-- The empty-assembly branch of the gap analyzer: one full-length gap per
reference sequence. -/
theorem calc_covered_empty (hits : List (String × List NucmerHit))
    (ref_lengths : List (String × ℤ)) (hall : ∀ q ∈ ref_lengths, 1 ≤ q.2) :
    calculate_ref_positions_covered_by_contigs true hits ref_lengths =
      Except.ok ([], ref_lengths.map (fun q => (q.1, [⟨0, q.2 - 1⟩]))) := by
  have hmap : ∀ (rl : List (String × ℤ)), (∀ q ∈ rl, 1 ≤ q.2) →
      rl.mapM (fun p => do
        let iv ← mkInterval 0 (p.2 - 1)
        Except.ok (p.1, [iv])) =
      Except.ok (rl.map (fun q => (q.1, ([⟨0, q.2 - 1⟩] : List Interval)))) := by
    intro rl
    induction rl with
    | nil => intro _; rfl
    | cons q rest ih =>
      intro hq
      rw [List.mapM_cons, mkInterval_ok 0 (q.2 - 1) (by have := hq q (by simp); omega)]
      simp only [except_bind_ok]
      rw [ih (fun c hc => hq c (List.mem_cons_of_mem q hc))]
      rfl
  unfold calculate_ref_positions_covered_by_contigs
  rw [if_pos rfl, hmap ref_lengths hall]
  rfl

/-- C5: with an empty assembly (no alignment hits) every downstream stage
still produces well-defined results: each reference sequence's
`not_covered_by_contigs` is the single full-length interval `(0, L-1)`,
the per-sequence record has zero hits, zero bases and both `assembled`
flags false, and `should_have_assembled` equals the sequence's entire
ok-coverage region. -/
theorem claim_C5 (hits : List (String × List NucmerHit))
    (ref_lengths : List (String × ℤ)) (hall : ∀ q ∈ ref_lengths, 1 ≤ q.2)
    (L : ℤ) (hL : 1 ≤ L) (ok_cov : List Interval)
    (hok : ∀ a ∈ ok_cov, 0 ≤ a.start ∧ a.start ≤ a.«end» ∧ a.«end» ≤ L - 1) :
    calculate_ref_positions_covered_by_contigs true hits ref_lengths =
      Except.ok ([], ref_lengths.map (fun q => (q.1, [⟨0, q.2 - 1⟩]))) ∧
    calculate_refseq_assembly_stats [] L =
      { hits := 0, bases_assembled := 0, assembled := false, assembled_ok := false } ∧
    calculate_should_have_assembled none L ok_cov = Except.ok ok_cov := by
  refine ⟨calc_covered_empty hits ref_lengths hall, rfl, ?_⟩
  unfold calculate_should_have_assembled
  show (do
    let inv ← invert_list [] L
    Except.ok (intersection inv ok_cov)) = Except.ok ok_cov
  have hinv : invert_list ([] : List Interval) L = Except.ok [⟨0, L - 1⟩] := by
    simp only [invert_list]
    rw [mkInterval_ok 0 (L - 1) (by omega)]
    rfl
  rw [hinv]
  simp only [except_bind_ok]
  rw [intersection_full L ok_cov hok]


/-- Witness for C5: a single reference of length 1000 with no hits and an
ok-coverage region of `[(0, 99)]`. -/
theorem claim_C5_witness :
    ((∀ q ∈ ([("ref", 1000)] : List (String × ℤ)), 1 ≤ q.2) ∧ (1 : ℤ) ≤ 1000 ∧
     (∀ a ∈ ([⟨0, 99⟩] : List Interval),
        0 ≤ a.start ∧ a.start ≤ a.«end» ∧ a.«end» ≤ 1000 - 1)) ∧
    (calculate_ref_positions_covered_by_contigs true [] [("ref", 1000)] =
      Except.ok ([], ([("ref", 1000)] : List (String × ℤ)).map
        (fun q => (q.1, [⟨0, q.2 - 1⟩]))) ∧
    calculate_refseq_assembly_stats [] 1000 =
      { hits := 0, bases_assembled := 0, assembled := false, assembled_ok := false } ∧
    calculate_should_have_assembled none 1000 [⟨0, 99⟩] = Except.ok [⟨0, 99⟩]) :=
  ⟨⟨by decide, by decide, by decide⟩,
   claim_C5 [] [("ref", 1000)] (by decide) 1000 (by decide) [⟨0, 99⟩] (by decide)⟩

/-! ## Stats aggregator: claim C8 -/

/-- Merging preserves interval validity. -/
theorem merge_valid (l : List Interval) (h : ∀ a ∈ l, a.start ≤ a.«end») :
    ∀ x ∈ merge_overlapping_in_list l, x.start ≤ x.«end» := by
  unfold merge_overlapping_in_list
  have hperm := List.perm_insertionSort Interval.lex_le l
  rcases hs : List.insertionSort Interval.lex_le l with _ | ⟨a, rest⟩
  · simp
  · rw [hs] at hperm
    intro x hx
    exact mergeFold_valid rest a (h a (hperm.mem_iff.mp (by simp)))
      (fun b hb => h b (hperm.mem_iff.mp (by simp [hb]))) x hx

/-- A nonnegative integer is a computed value, not the `-1` sentinel. -/
theorem ne_neg_one_of_nonneg {v : ℤ} (h : 0 ≤ v) : v ≠ -1 ∧ 0 ≤ v :=
  ⟨by omega, h⟩

/-- C8: after `Qc._calculate_stats` runs (on well-formed upstream data:
nonnegative sequence lengths and valid stored intervals), every key of the
fixed key set maps to a computed, nonnegative value — no key still holds
the `-1` sentinel it was initialised with, for any input including the
empty-assembly case. -/
theorem claim_C8 (d : QcData)
    (h1 : ∀ p ∈ d.ref_lengths, 0 ≤ p.2)
    (h2 : ∀ p ∈ d.ref_pos_covered_by_contigs, ∀ a ∈ p.2, a.start ≤ a.«end»)
    (h3 : ∀ p ∈ d.should_have_assembled, ∀ a ∈ p.2, a.start ≤ a.«end»)
    (h4 : ∀ p ∈ d.assembly_lengths, 0 ≤ p.2) :
    ∀ k ∈ stats_keys, calculate_stats d k ≠ -1 ∧ 0 ≤ calculate_stats d k := by
  intro k hk
  have hrb : 0 ≤ (d.ref_lengths.map Prod.snd).sum := by
    apply List.sum_nonneg
    intro x hx
    obtain ⟨p, hp, rfl⟩ := List.mem_map.mp hx
    exact h1 p hp
  have hrba : 0 ≤ (d.ref_pos_covered_by_contigs.map (fun p => length_sum_from_list p.2)).sum := by
    apply List.sum_nonneg
    intro x hx
    obtain ⟨p, hp, rfl⟩ := List.mem_map.mp hx
    exact length_sum_nonneg p.2 (h2 p hp)
  have hmiss : 0 ≤ (d.should_have_assembled.map (fun p => length_sum_from_list p.2)).sum := by
    apply List.sum_nonneg
    intro x hx
    obtain ⟨p, hp, rfl⟩ := List.mem_map.mp hx
    exact length_sum_nonneg p.2 (h3 p hp)
  have hab : 0 ≤ (d.assembly_lengths.map Prod.snd).sum := by
    apply List.sum_nonneg
    intro x hx
    obtain ⟨p, hp, rfl⟩ := List.mem_map.mp hx
    exact h4 p hp
  have hbir : 0 ≤ (contigs_and_bases_that_hit_ref d.assembly_vs_ref_mummer_hits).1 := by
    unfold contigs_and_bases_that_hit_ref
    apply List.sum_nonneg
    intro x hx
    obtain ⟨p, hp, rfl⟩ := List.mem_map.mp hx
    apply length_sum_nonneg
    apply merge_valid
    intro a ha
    obtain ⟨h', hh', rfl⟩ := List.mem_map.mp ha
    unfold NucmerHit.qry_coords
    simp [min_le_iff, le_max_iff]
  simp only [stats_keys, List.mem_cons, List.not_mem_nil, or_false] at hk
  rcases hk with rfl | rfl | rfl | rfl | rfl | rfl | rfl | rfl | rfl | rfl | rfl | rfl | rfl | rfl
  all_goals refine ne_neg_one_of_nonneg ?_
  all_goals simp [calculate_stats, setStat, initial_stats]
  · exact hrb
  · exact hrba
  · exact hmiss
  · exact hab
  · exact hbir
  · apply List.sum_nonneg
    intro x hx
    obtain ⟨p, hp, rfl⟩ := List.mem_map.mp hx
    exact Int.natCast_nonneg _

/-- Witness for C8 at the empty-assembly data (all upstream structures
empty). -/
theorem claim_C8_witness :
    ((∀ p ∈ (QcData.mk [] [] [] [] [] [] [] []).ref_lengths, 0 ≤ p.2) ∧
     (∀ p ∈ (QcData.mk [] [] [] [] [] [] [] []).ref_pos_covered_by_contigs,
        ∀ a ∈ p.2, a.start ≤ a.«end») ∧
     (∀ p ∈ (QcData.mk [] [] [] [] [] [] [] []).should_have_assembled,
        ∀ a ∈ p.2, a.start ≤ a.«end») ∧
     (∀ p ∈ (QcData.mk [] [] [] [] [] [] [] []).assembly_lengths, 0 ≤ p.2)) ∧
    (∀ k ∈ stats_keys, calculate_stats (QcData.mk [] [] [] [] [] [] [] []) k ≠ -1 ∧
      0 ≤ calculate_stats (QcData.mk [] [] [] [] [] [] [] []) k) :=
  ⟨⟨by simp, by simp, by simp, by simp⟩,
   claim_C8 (QcData.mk [] [] [] [] [] [] [] []) (by simp) (by simp) (by simp) (by simp)⟩

end IvaQc
